import Mathlib

/-!
Verification of the resume-builder versioning and diff engine.

The JSON payloads handled by the system ("section maps") are modelled by a
mutual inductive family: `Json` for values, `JList` for array contents and
`JFields` for object fields (an ordered association list, as JavaScript
objects preserve insertion order).  Numbers are modelled as integers.

`deepEqual`, `diffSections` and `generateChangeSummary` are translated from
`src/lib/diff.ts`.  JavaScript property access on arrays (`b[key]` where `b`
is an array and `key` a string) is modelled by `jsArrGet`: it yields the
element at a canonical decimal index, the `length` property as a number, and
nothing otherwise (other array properties are functions, which never compare
equal to a JSON value).  Object property access is own-property lookup; keys
named "__proto__" (whose JavaScript lookup semantics on a missing own
property differ) are excluded by the well-formedness predicate `jsonWF`.
-/

mutual
inductive Json where
  | null
  | bool (b : Bool)
  | num (n : Int)
  | str (s : String)
  | arr (xs : JList)
  | obj (fs : JFields)
  deriving DecidableEq

inductive JList where
  | nil
  | cons (hd : Json) (tl : JList)
  deriving DecidableEq

inductive JFields where
  | nil
  | cons (k : String) (v : Json) (tl : JFields)
  deriving DecidableEq
end

def JList.length : JList → Nat
  | .nil => 0
  | .cons _ tl => tl.length + 1

def JFields.length : JFields → Nat
  | .nil => 0
  | .cons _ _ tl => tl.length + 1

def JList.get? : JList → Nat → Option Json
  | .nil, _ => none
  | .cons x _, 0 => some x
  | .cons _ tl, n + 1 => tl.get? n

/-- Own-property lookup on a JavaScript object (first field with the key). -/
def JFields.find? : JFields → String → Option Json
  | .nil, _ => none
  | .cons k v tl, key => if k == key then some v else tl.find? key

/-- Keys of an object, in insertion order (`Object.keys`). -/
def JFields.keys : JFields → List String
  | .nil => []
  | .cons k _ tl => k :: tl.keys

def JFields.append : JFields → JFields → JFields
  | .nil, gs => gs
  | .cons k v tl, gs => .cons k v (tl.append gs)

def JFields.filterKeys : JFields → (String → Bool) → JFields
  | .nil, _ => .nil
  | .cons k v tl, p => if p k then .cons k v (tl.filterKeys p) else tl.filterKeys p

def digitsVal (cs : List Char) : Nat :=
  cs.foldl (fun acc c => acc * 10 + (c.toNat - 48)) 0

/-- Computes the array index: `decodeArrayIndex k` is the array index denoted by the string `k` when `k`
is the canonical decimal representation of a natural number (no leading
zeros), and `none` otherwise — JavaScript array property access `a[k]` hits an
element exactly for such canonical index strings. -/
def decodeArrayIndex (k : String) : Option Nat :=
  match k.toList with
  | [] => none
  | c :: cs =>
    if c == '0' then (if cs.isEmpty then some 0 else none)
    else if (c :: cs).all Char.isDigit then some (digitsVal (c :: cs)) else none

/-- JavaScript property access `ys[k]` on an array `ys` with a string key
`k`: the element at a canonical index, the numeric `length` property, and
nothing that can compare equal to a JSON value otherwise. -/
def jsArrGet (ys : JList) (k : String) : Option Json :=
  if k == "length" then some (Json.num ys.length)
  else
    match decodeArrayIndex k with
    | some i => ys.get? i
    | none => none

mutual
/-- Translated from `deepEqual` in `src/lib/diff.ts`.  The branches mirror the
source: strict equality on primitives (`a === b`), `null` checks, the
`typeof` guard (arrays and objects both have `typeof` "object"), the array
branch (length check then element-wise recursion, reached only when `a` is an
array), and the object branch, which compares `Object.keys` counts and then
recurses through `a`'s keys looked up in `b` — when `b` is an array this key
lookup is array property access, which is why an object such as
`{"0": x}` compares equal to the array `[x]`. -/
def deepEqual : Json → Json → Bool
  | Json.null, Json.null => true
  | Json.bool x, Json.bool y => x == y
  | Json.num x, Json.num y => x == y
  | Json.str x, Json.str y => x == y
  | Json.arr xs, Json.arr ys => xs.length == ys.length && deepEqualList xs ys
  | Json.obj fs, Json.arr ys => fs.length == ys.length && deepEqualFieldsArr fs ys
  | Json.obj fs, Json.obj gs => fs.length == gs.length && deepEqualFieldsObj fs gs
  | _, _ => false
  termination_by structural a _ => a

/-- Models `a.every((val, i) => deepEqual(val, b[i]))` after the length check. -/
def deepEqualList : JList → JList → Bool
  | JList.nil, _ => true
  | JList.cons _ _, JList.nil => false
  | JList.cons x xs, JList.cons y ys => deepEqual x y && deepEqualList xs ys
  termination_by structural a _ => a

/-- Models `keysA.every(key => deepEqual(a[key], b[key]))` when `b` is an array. -/
def deepEqualFieldsArr : JFields → JList → Bool
  | JFields.nil, _ => true
  | JFields.cons k v rest, ys =>
      (match jsArrGet ys k with
       | some w => deepEqual v w
       | none => false) && deepEqualFieldsArr rest ys
  termination_by structural a _ => a

/-- Models `keysA.every(key => deepEqual(a[key], b[key]))` when `b` is an object;
a key of `a` missing from `b` gives `deepEqual(a[key], undefined) = false`. -/
def deepEqualFieldsObj : JFields → JFields → Bool
  | JFields.nil, _ => true
  | JFields.cons k v rest, gs =>
      (match gs.find? k with
       | some w => deepEqual v w
       | none => false) && deepEqualFieldsObj rest gs
  termination_by structural a _ => a
end

/-- Models `deepEqual(oldData[key], newData[key])` at the `Option` level: a key
absent on one side is `undefined`, and `deepEqual(v, undefined)` is `false`
for every JSON value `v` (`undefined === undefined` would be `true`, but that
case cannot arise for a key drawn from the union of the key sets). -/
def deepEqualAt : Option Json → Option Json → Bool
  | some a, some b => deepEqual a b
  | none, none => true
  | _, _ => false

/-- Models `new Set([...keys(old), ...keys(new)])` iterated in insertion order:
first occurrences survive, order preserved. -/
def insertionDedupAux : List String → List String → List String
  | _, [] => []
  | seen, k :: rest =>
    if seen.contains k then insertionDedupAux seen rest
    else k :: insertionDedupAux (k :: seen) rest

def insertionDedup (l : List String) : List String := insertionDedupAux [] l

/-- Translated from `diffSections` in `src/lib/diff.ts`: if `oldData` is
absent every key of `newData` is returned; otherwise the keys of either map
whose values fail `deepEqual`, in key-set insertion order. -/
def diffSections (oldData : Option JFields) (newData : JFields) : List String :=
  match oldData with
  | none => newData.keys
  | some od =>
    (insertionDedup (od.keys ++ newData.keys)).filter
      (fun k => !(deepEqualAt (od.find? k) (newData.find? k)))

/-- Translated from `generateChangeSummary` in `src/lib/diff.ts`. -/
def generateChangeSummary (changedSections : List String) : String :=
  if changedSections.length == 0 then "No changes detected"
  else if changedSections.length == 1 then "Updated " ++ changedSections.headD ""
  else if changedSections.length ≤ 3 then
    "Updated " ++ String.intercalate ", " changedSections
  else "Updated " ++ toString changedSections.length ++ " sections"

def keysNodupB : List String → Bool
  | [] => true
  | k :: rest => !(rest.contains k) && keysNodupB rest

def goodKeys (l : List String) : Bool :=
  keysNodupB l && l.all (fun k => k != "__proto__")

def keySubset (l m : List String) : Bool :=
  l.all (fun k => m.contains k)

mutual
/-- Modelled from the spec's words for deep equality (§4.1): "recursive
structural equality over JSON-compatible values (objects compared by full key
set plus recursive value equality; arrays compared element-by-element,
order-sensitive, length-sensitive; primitives compared by value; `null` and
'absent' are distinct and both cause a 'changed' result against any other
value)".  Used to compare the spec's description with the code's
`deepEqual`. -/
def specEq : Json → Json → Bool
  | Json.null, Json.null => true
  | Json.bool x, Json.bool y => x == y
  | Json.num x, Json.num y => x == y
  | Json.str x, Json.str y => x == y
  | Json.arr xs, Json.arr ys => specEqList xs ys
  | Json.obj fs, Json.obj gs =>
      keySubset fs.keys gs.keys && keySubset gs.keys fs.keys && specEqFields fs gs
  | _, _ => false
  termination_by structural a _ => a

def specEqList : JList → JList → Bool
  | JList.nil, JList.nil => true
  | JList.cons x xs, JList.cons y ys => specEq x y && specEqList xs ys
  | _, _ => false
  termination_by structural a _ => a

def specEqFields : JFields → JFields → Bool
  | JFields.nil, _ => true
  | JFields.cons k v rest, gs =>
      (match gs.find? k with
       | some w => specEq v w
       | none => false) && specEqFields rest gs
  termination_by structural a _ => a
end

mutual
/-- The spec's deep equality amended with the one deviation the code forces:
an object value on the old side additionally counts as equal to an array
value on the new side when the object has exactly as many keys as the array
has elements and every key, read as a JavaScript array property (canonical
index or `length`), retrieves a deeply-equal value.  Everything else is the
spec's recursive structural equality. -/
def specEqA : Json → Json → Bool
  | Json.null, Json.null => true
  | Json.bool x, Json.bool y => x == y
  | Json.num x, Json.num y => x == y
  | Json.str x, Json.str y => x == y
  | Json.arr xs, Json.arr ys => specEqAList xs ys
  | Json.obj fs, Json.arr ys => fs.length == ys.length && specEqAFieldsArr fs ys
  | Json.obj fs, Json.obj gs =>
      keySubset fs.keys gs.keys && keySubset gs.keys fs.keys && specEqAFields fs gs
  | _, _ => false
  termination_by structural a _ => a

def specEqAList : JList → JList → Bool
  | JList.nil, JList.nil => true
  | JList.cons x xs, JList.cons y ys => specEqA x y && specEqAList xs ys
  | _, _ => false
  termination_by structural a _ => a

def specEqAFieldsArr : JFields → JList → Bool
  | JFields.nil, _ => true
  | JFields.cons k v rest, ys =>
      (match jsArrGet ys k with
       | some w => specEqA v w
       | none => false) && specEqAFieldsArr rest ys
  termination_by structural a _ => a

def specEqAFields : JFields → JFields → Bool
  | JFields.nil, _ => true
  | JFields.cons k v rest, gs =>
      (match gs.find? k with
       | some w => specEqA v w
       | none => false) && specEqAFields rest gs
  termination_by structural a _ => a
end

def specEqAt (eq : Json → Json → Bool) : Option Json → Option Json → Bool
  | some a, some b => eq a b
  | none, none => true
  | _, _ => false

/-- Modelled from the spec's words for `diffSections` (§4.1): the keys
present in either map whose values are not deeply equal in the spec's sense,
enumerated in the same deterministic order the code uses. -/
def specDiff (oldData : JFields) (newData : JFields) : List String :=
  (insertionDedup (oldData.keys ++ newData.keys)).filter
    (fun k => !(specEqAt specEq (oldData.find? k) (newData.find? k)))

/-- The spec's diff with the amended (code-forced) deep equality. -/
def specDiffA (oldData : JFields) (newData : JFields) : List String :=
  (insertionDedup (oldData.keys ++ newData.keys)).filter
    (fun k => !(specEqAt specEqA (oldData.find? k) (newData.find? k)))

mutual
/-- Well-formed JSON value: object keys are duplicate-free (JavaScript
objects cannot carry duplicate keys) and no key is "__proto__" (see the
module comment on the property-access model). -/
def jsonWF : Json → Bool
  | Json.null => true
  | Json.bool _ => true
  | Json.num _ => true
  | Json.str _ => true
  | Json.arr xs => jlistWF xs
  | Json.obj fs => goodKeys fs.keys && jfieldsWF fs
  termination_by structural a => a

def jlistWF : JList → Bool
  | JList.nil => true
  | JList.cons x xs => jsonWF x && jlistWF xs
  termination_by structural a => a

def jfieldsWF : JFields → Bool
  | JFields.nil => true
  | JFields.cons _ v tl => jsonWF v && jfieldsWF tl
  termination_by structural a => a
end

/-!
Data model, from `src/models/Resume.ts` (`part_000`) and
`src/models/ResumeVersion.ts` (`part_001`).  The database is modelled as the
lists of resume documents and version rows; `nextId` supplies fresh document
ids.  `createVersion` models `ResumeVersion.create` under the unique compound
index on `(resume_id, version_number)`: inserting a duplicate key is a
rejected write (`none`), which the route handlers' catch blocks surface as an
internal error (HTTP 500).
-/

inductive ChangeType where
  | edit
  | upload
  | rollback
  deriving DecidableEq

structure ResumeDoc where
  rid : Nat
  meta_code : String
  title : String
  data : JFields
  current_version : Nat
  deriving DecidableEq

structure RVersion where
  resume_id : Nat
  version_number : Nat
  data : JFields
  changed_sections : List String
  change_summary : Option String
  change_type : ChangeType
  deriving DecidableEq

structure DB where
  docs : List ResumeDoc
  versions : List RVersion
  nextId : Nat
  deriving DecidableEq

/-- Response outcomes of the route handlers.  `conflict` is the spec's
VersionConflict (§7); it is part of the response vocabulary so that theorems
can speak about it, and the theorems below show the handlers never produce
it — a raced duplicate-key insert surfaces as `internalError` (HTTP 500). -/
inductive Resp where
  | ok (noChange : Bool)
  | created
  | badRequest
  | notFound
  | internalError
  | conflict
  deriving DecidableEq

def findDoc (db : DB) (id : Nat) : Option ResumeDoc :=
  db.docs.find? (fun d => d.rid == id)

def findVersion (db : DB) (id : Nat) (n : Nat) : Option RVersion :=
  db.versions.find? (fun v => v.resume_id == id && v.version_number == n)

def hasVersion (db : DB) (id : Nat) (n : Nat) : Bool :=
  (findVersion db id n).isSome

/-- Models `document.save()` on a loaded mongoose document: the stored row with that
id is overwritten wholesale. -/
def saveDoc (db : DB) (doc : ResumeDoc) : DB :=
  { db with docs := db.docs.map (fun d => if d.rid == doc.rid then doc else d) }

/-- Models `ResumeVersion.create` under the unique `(resume_id, version_number)`
index: `none` is the duplicate-key rejection. -/
def createVersion (db : DB) (v : RVersion) : Option DB :=
  if hasVersion db v.resume_id v.version_number then none
  else some { db with versions := db.versions ++ [v] }

/-- JavaScript truthiness of an optional string field of a request body:
a missing field and the empty string are falsy. -/
def truthyStr : Option String → Option String
  | some s => if s.isEmpty then none else some s
  | none => none

def applyTitle (doc : ResumeDoc) (t : Option String) : ResumeDoc :=
  match truthyStr t with
  | some s => { doc with title := s }
  | none => doc

def applyMetaCode (doc : ResumeDoc) (m : Option String) : ResumeDoc :=
  match truthyStr m with
  | some s => { doc with meta_code := s }
  | none => doc

/-- JavaScript truthiness of a JSON value. -/
def jsTruthy : Json → Bool
  | Json.null => false
  | Json.bool b => b
  | Json.num n => n != 0
  | Json.str s => !s.isEmpty
  | Json.arr _ => true
  | Json.obj _ => true

/-- Reads `value?.code` when a truthy string: the string codes the handlers copy
into `meta_code` (`body.value?.code`, `data?.meta?.code`). -/
def codeOf (v : Json) : Option String :=
  match v with
  | Json.obj m =>
    match m.find? "code" with
    | some (Json.str c) => if c.isEmpty then none else some c
    | _ => none
  | _ => none

/-- Reads `data?.meta?.code`. -/
def metaCodeOfData (d : JFields) : Option String :=
  match d.find? "meta" with
  | some m => codeOf m
  | none => none

/-- Reads `data?.basics?.name?.full`. -/
def nameFullOf (d : JFields) : Option String :=
  match d.find? "basics" with
  | some (Json.obj b) =>
    match b.find? "name" with
    | some (Json.obj nm) =>
      match nm.find? "full" with
      | some (Json.str s) => if s.isEmpty then none else some s
      | _ => none
    | _ => none
  | _ => none

/-- JavaScript object spread `{ ...a, ...b }`: keys of `a` in order with
values overridden by `b` where present, then keys of `b` not in `a`, in
`b`'s order. -/
def spreadLeft : JFields → JFields → JFields
  | JFields.nil, _ => JFields.nil
  | JFields.cons k v tl, b =>
    JFields.cons k (match b.find? k with | some w => w | none => v) (spreadLeft tl b)

def jsSpread (a b : JFields) : JFields :=
  (spreadLeft a b).append (b.filterKeys (fun k => !(a.keys.contains k)))

/-!
Route handlers.  Each is translated from its source file; database writes
happen in source order, so a rejected write leaves exactly the effects that
preceded it (the `catch` block only builds the 500 response).
-/

/-- Handler `POST /api/resumes` (`src/app/api/resumes/route.ts`): create a resume
and its first version snapshot.  The first version is created with only
`resume_id`, `version_number` and `data`, so `changed_sections` takes the
schema default `[]`, `change_summary` is absent and `change_type` defaults
to `edit` (schema in `ResumeVersion.ts`). -/
def createOp (db : DB) (data : Option JFields) (meta_code title : Option String) :
    DB × Resp :=
  match data with
  | none => (db, Resp.badRequest)
  | some d =>
    let mc := match truthyStr meta_code with
      | some s => some s
      | none => metaCodeOfData d
    match mc with
    | none => (db, Resp.badRequest)
    | some mcv =>
      let name := match nameFullOf d with | some s => s | none => "Untitled"
      let ttl := match truthyStr title with
        | some s => s
        | none => name ++ " – " ++ mcv
      let doc : ResumeDoc := ⟨db.nextId, mcv, ttl, d, 1⟩
      let db1 : DB := { db with docs := db.docs ++ [doc], nextId := db.nextId + 1 }
      match createVersion db1 ⟨doc.rid, 1, d, [], none, ChangeType.edit⟩ with
      | some db2 => (db2, Resp.created)
      | none => (db1, Resp.internalError)

/-- Handler `PUT /api/resumes/[id]` (`src/app/api/resumes/[id]/route.ts`), with a
fault-injection point: `crashBeforeSave = true` models an exception thrown
by `currentResume.save()` after `ResumeVersion.create` already succeeded
(for example a store I/O failure); the route's catch block then returns 500
with the version row already persisted. -/
def putOpWith (crashBeforeSave : Bool) (db : DB) (id : Nat)
    (data : Option JFields) (title meta_code : Option String) : DB × Resp :=
  match data with
  | none => (db, Resp.badRequest)
  | some d =>
    match findDoc db id with
    | none => (db, Resp.notFound)
    | some doc =>
      let changedSections := diffSections (some doc.data) d
      if changedSections.isEmpty then
        let doc1 := applyMetaCode (applyTitle doc title) meta_code
        let updated := (truthyStr title).isSome || (truthyStr meta_code).isSome
        ((if updated then saveDoc db doc1 else db), Resp.ok true)
      else
        let nextVersion := doc.current_version + 1
        match createVersion db ⟨id, nextVersion, d, changedSections,
            some (generateChangeSummary changedSections), ChangeType.edit⟩ with
        | none => (db, Resp.internalError)
        | some db1 =>
          if crashBeforeSave then (db1, Resp.internalError)
          else
            let doc1 := { applyMetaCode (applyTitle doc title) meta_code with
              data := d, current_version := nextVersion }
            (saveDoc db1 doc1, Resp.ok false)

/-- Handler `PUT /api/resumes/[id]` without fault injection. -/
def putOp (db : DB) (id : Nat) (data : Option JFields)
    (title meta_code : Option String) : DB × Resp :=
  putOpWith false db id data title meta_code

def validSections : List String :=
  ["meta", "basics", "work", "education", "skills", "projects"]

/-- Request bodies accepted by `PATCH /api/resumes/[id]`: `{section, value}`,
`{sections: {...}}`, `{title}`, or anything else (rejected). -/
inductive PatchBody where
  | single (sectionName : String) (value : Json)
  | multi (sections : JFields)
  | titleOnly (title : String)
  | invalid

/-- Handler `PATCH /api/resumes/[id]` (`src/app/api/resumes/[id]/route.ts`): partial
section-level update.  Replaces the named sections wholesale via object
spread, copies `value.code` into `meta_code` when the `meta` section carries
a truthy code, saves the document, and never touches the version log. -/
def applyMetaFromValue (doc : ResumeDoc) (v : Json) : ResumeDoc :=
  match codeOf v with
  | some c => { doc with meta_code := c }
  | none => doc

def patchOp (db : DB) (id : Nat) (body : PatchBody) : DB × Resp :=
  match findDoc db id with
  | none => (db, Resp.notFound)
  | some doc =>
    match body with
    | PatchBody.single sec v =>
      if validSections.contains sec then
        let doc1 := { doc with data := jsSpread doc.data (JFields.cons sec v JFields.nil) }
        let doc2 := if sec == "meta" then applyMetaFromValue doc1 v else doc1
        (saveDoc db doc2, Resp.ok false)
      else (db, Resp.badRequest)
    | PatchBody.multi secs =>
      if secs.keys.all (fun k => validSections.contains k) then
        let doc1 := { doc with data := jsSpread doc.data secs }
        let doc2 := match secs.find? "meta" with
          | some m => applyMetaFromValue doc1 m
          | none => doc1
        (saveDoc db doc2, Resp.ok false)
      else (db, Resp.badRequest)
    | PatchBody.titleOnly t =>
      if t.isEmpty then (db, Resp.badRequest)
      else (saveDoc db { doc with title := t }, Resp.ok false)
    | PatchBody.invalid => (db, Resp.badRequest)

/-- Title resolution of the upload route: the provided truthy title, else
`"{basics.name.full or fallback} – {meta_code}"`. -/
def uploadTitle (data : JFields) (title : Option String) (mc : String) : String :=
  match truthyStr title with
  | some s => s
  | none =>
    (match nameFullOf data with
      | some s => s
      | none => "Untitled Resume") ++ " – " ++ mc

/-- Handler `POST /api/resumes/upload` (`part_004`): ingest a full payload by its
classifier.  `data` and `title` are the fields extracted from the wrapped or
raw body shape; the body is rejected when neither a truthy `meta` nor a
truthy `basics` field is present, or when `data.meta.code` is missing.  For
an existing classifier a version is created unconditionally (no empty-diff
check, unlike `PUT`) with `change_type = upload`. -/
def uploadOp (db : DB) (data : JFields) (title : Option String) : DB × Resp :=
  let metaTruthy := match data.find? "meta" with
    | some v => jsTruthy v
    | none => false
  let basicsTruthy := match data.find? "basics" with
    | some v => jsTruthy v
    | none => false
  if !(metaTruthy || basicsTruthy) then (db, Resp.badRequest)
  else
    match metaCodeOfData data with
    | none => (db, Resp.badRequest)
    | some mc =>
      let ttl := uploadTitle data title mc
      match db.docs.find? (fun dd => dd.meta_code == mc) with
      | some existing =>
        let nextVersion := existing.current_version + 1
        let changedSections := diffSections (some existing.data) data
        match createVersion db ⟨existing.rid, nextVersion, data, changedSections,
            some (generateChangeSummary changedSections), ChangeType.upload⟩ with
        | none => (db, Resp.internalError)
        | some db1 =>
          let doc1 := { existing with
            data := data
            current_version := nextVersion
            title := ttl }
          (saveDoc db1 doc1, Resp.ok false)
      | none =>
        let doc : ResumeDoc := ⟨db.nextId, mc, ttl, data, 1⟩
        let db1 : DB := { db with docs := db.docs ++ [doc], nextId := db.nextId + 1 }
        match createVersion db1 ⟨doc.rid, 1, data, data.keys,
            some "Initial upload", ChangeType.upload⟩ with
        | some db2 => (db2, Resp.created)
        | none => (db1, Resp.internalError)

/-- Handler `POST /api/resumes/[id]/versions` (`part_005`): rollback.  A falsy
`version_number` (0 models the missing/zero body field) is rejected; an
absent target version is NotFound; otherwise a new version with the
target's data is appended (`change_type = rollback`) and the document is
advanced to it. -/
def rollbackOp (db : DB) (id : Nat) (version_number : Nat) : DB × Resp :=
  if version_number == 0 then (db, Resp.badRequest)
  else
    match findVersion db id version_number with
    | none => (db, Resp.notFound)
    | some target =>
      match findDoc db id with
      | none => (db, Resp.notFound)
      | some doc =>
        let changedSections := diffSections (some doc.data) target.data
        let nextVersion := doc.current_version + 1
        match createVersion db ⟨id, nextVersion, target.data, changedSections,
            some ("Rolled back to v" ++ toString version_number), ChangeType.rollback⟩ with
        | none => (db, Resp.internalError)
        | some db1 =>
          (saveDoc db1 { doc with data := target.data, current_version := nextVersion },
            Resp.ok false)

/-!
Auxiliary views and measures used only by the proofs.
-/

def JList.toList : JList → List Json
  | .nil => []
  | .cons x tl => x :: tl.toList

def JFields.entries : JFields → List (String × Json)
  | .nil => []
  | .cons k v tl => (k, v) :: tl.entries

mutual
def Json.size : Json → Nat
  | Json.null => 1
  | Json.bool _ => 1
  | Json.num _ => 1
  | Json.str _ => 1
  | Json.arr xs => xs.size + 1
  | Json.obj fs => fs.size + 1
  termination_by structural a => a

def JList.size : JList → Nat
  | JList.nil => 1
  | JList.cons x tl => x.size + tl.size + 1
  termination_by structural a => a

def JFields.size : JFields → Nat
  | JFields.nil => 1
  | JFields.cons _ v tl => v.size + tl.size + 1
  termination_by structural a => a
end

/-- The §3 invariant, per document: the mutable `data` equals (deeply) the
`data` of the stored version whose number is `current_version`. -/
def invB (db : DB) : Bool :=
  db.docs.all (fun doc => db.versions.any (fun v =>
    v.resume_id == doc.rid && v.version_number == doc.current_version &&
    deepEqual (Json.obj doc.data) (Json.obj v.data)))

/-- Store sanity: stored version payloads are well-formed and version rows
reference already-allocated document ids (fresh ids are never referenced). -/
def stateOKb (db : DB) : Bool :=
  db.versions.all (fun v =>
    jsonWF (Json.obj v.data) && decide (v.resume_id < db.nextId))

/-- The write operations of the system (§4): create, Replace, Ingest,
Rollback.  Partial update (`patchOp`) is deliberately excluded here; the C1
counterexample shows it breaks the invariant. -/
inductive WriteOp where
  | createRes (data : Option JFields) (meta_code title : Option String)
  | replace (id : Nat) (data : Option JFields) (title meta_code : Option String)
  | ingest (data : JFields) (title : Option String)
  | rollbackTo (id : Nat) (version_number : Nat)

def applyOp (db : DB) : WriteOp → DB × Resp
  | WriteOp.createRes d m t => createOp db d m t
  | WriteOp.replace id d t m => putOp db id d t m
  | WriteOp.ingest d t => uploadOp db d t
  | WriteOp.rollbackTo id n => rollbackOp db id n

/-- The request payload carries well-formed JSON. -/
def opWF : WriteOp → Bool
  | WriteOp.createRes d _ _ =>
    (match d with | some d' => jsonWF (Json.obj d') | none => true)
  | WriteOp.replace _ d _ _ =>
    (match d with | some d' => jsonWF (Json.obj d') | none => true)
  | WriteOp.ingest d _ => jsonWF (Json.obj d)
  | WriteOp.rollbackTo _ _ => true


/-!
Concurrency model for two Replace writers racing on one document (§5).

Each writer has already performed its `Resume.findById` read and holds the
same snapshot (same `current_version` N, per the spec's race scenario); the
computation between the read and the writes (diff, summary) is pure, so the
shared-state steps that remain are exactly `ResumeVersion.create` followed by
`currentResume.save()`, in that order per writer, interleaved arbitrarily.
The unique `(resume_id, version_number)` index makes the second `create` of
the same target version fail; the route's catch block turns that rejection
into a 500 `internalError` — there is no retry loop and no conflict
classification anywhere in the handler.
-/

inductive WPhase where
  | toCreate
  | toSave
  | done
  deriving DecidableEq

structure RaceWriter where
  snapshot : ResumeDoc
  payload : JFields
  phase : WPhase
  resp : Option Resp
  deriving DecidableEq

/-- The version row a writer attempts to insert (PUT handler, lines 99-107). -/
def writerVersion (w : RaceWriter) : RVersion :=
  ⟨w.snapshot.rid, w.snapshot.current_version + 1, w.payload,
    diffSections (some w.snapshot.data) w.payload,
    some (generateChangeSummary (diffSections (some w.snapshot.data) w.payload)),
    ChangeType.edit⟩

/-- The document row a writer saves (PUT handler, lines 109-114; no title or
classifier supplied in the race scenario). -/
def writerDoc (w : RaceWriter) : ResumeDoc :=
  { w.snapshot with
    data := w.payload
    current_version := w.snapshot.current_version + 1 }

/-- One shared-state step of a writer: the conditional version insert, then
the document save; a duplicate-key rejection ends the request with a 500. -/
def writerStep (db : DB) (w : RaceWriter) : DB × RaceWriter :=
  match w.phase with
  | WPhase.toCreate =>
    if (diffSections (some w.snapshot.data) w.payload).isEmpty then
      (db, { w with phase := WPhase.done, resp := some (Resp.ok true) })
    else
      match createVersion db (writerVersion w) with
      | none => (db, { w with phase := WPhase.done, resp := some Resp.internalError })
      | some db1 => (db1, { w with phase := WPhase.toSave })
  | WPhase.toSave =>
    (saveDoc db (writerDoc w),
      { w with phase := WPhase.done, resp := some (Resp.ok false) })
  | WPhase.done => (db, w)

structure RaceState where
  db : DB
  wA : RaceWriter
  wB : RaceWriter
  deriving DecidableEq

/-- The scheduler picks writer A (`true`) or writer B (`false`). -/
def raceStep (s : RaceState) (pick : Bool) : RaceState :=
  if pick then
    { s with db := (writerStep s.db s.wA).1, wA := (writerStep s.db s.wA).2 }
  else
    { s with db := (writerStep s.db s.wB).1, wB := (writerStep s.db s.wB).2 }

def raceRun (s : RaceState) : List Bool → RaceState
  | [] => s
  | pick :: rest => raceRun (raceStep s pick) rest

/-- Both writers read the same document state before racing. -/
def raceStart (db0 : DB) (doc : ResumeDoc) (pa pb : JFields) : RaceState :=
  ⟨db0, ⟨doc, pa, WPhase.toCreate, none⟩, ⟨doc, pb, WPhase.toCreate, none⟩⟩


/-- The database after the first (winning) create of a writer racing from
snapshot `doc` with payload `p`. -/
def raceDbOne (db0 : DB) (doc : ResumeDoc) (p : JFields) : DB :=
  { db0 with versions := db0.versions ++ [writerVersion ⟨doc, p, WPhase.toCreate, none⟩] }

/-- The database after the winner's save. -/
def raceDbTwo (db0 : DB) (doc : ResumeDoc) (p : JFields) : DB :=
  saveDoc (raceDbOne db0 doc p) (writerDoc ⟨doc, p, WPhase.toCreate, none⟩)

/-- All states reachable from two Replace writers racing from the same
snapshot: the winner appends the single `N+1` version and saves; the loser's
insert is rejected by the unique index and its request ends with a 500. -/
def raceInv (db0 : DB) (doc : ResumeDoc) (pa pb : JFields) (s : RaceState) : Prop :=
  s = raceStart db0 doc pa pb ∨
  s = ⟨raceDbOne db0 doc pa, ⟨doc, pa, WPhase.toSave, none⟩,
    ⟨doc, pb, WPhase.toCreate, none⟩⟩ ∨
  s = ⟨raceDbOne db0 doc pb, ⟨doc, pa, WPhase.toCreate, none⟩,
    ⟨doc, pb, WPhase.toSave, none⟩⟩ ∨
  s = ⟨raceDbOne db0 doc pa, ⟨doc, pa, WPhase.toSave, none⟩,
    ⟨doc, pb, WPhase.done, some Resp.internalError⟩⟩ ∨
  s = ⟨raceDbOne db0 doc pb, ⟨doc, pa, WPhase.done, some Resp.internalError⟩,
    ⟨doc, pb, WPhase.toSave, none⟩⟩ ∨
  s = ⟨raceDbTwo db0 doc pa, ⟨doc, pa, WPhase.done, some (Resp.ok false)⟩,
    ⟨doc, pb, WPhase.toCreate, none⟩⟩ ∨
  s = ⟨raceDbTwo db0 doc pb, ⟨doc, pa, WPhase.toCreate, none⟩,
    ⟨doc, pb, WPhase.done, some (Resp.ok false)⟩⟩ ∨
  s = ⟨raceDbTwo db0 doc pa, ⟨doc, pa, WPhase.done, some (Resp.ok false)⟩,
    ⟨doc, pb, WPhase.done, some Resp.internalError⟩⟩ ∨
  s = ⟨raceDbTwo db0 doc pb, ⟨doc, pa, WPhase.done, some Resp.internalError⟩,
    ⟨doc, pb, WPhase.done, some (Resp.ok false)⟩⟩


/-!
Concrete fixtures used by witnesses and counterexamples.
-/

def exObjIdx : Json := Json.obj (JFields.cons "0" (Json.str "x") JFields.nil)

def exArrX : Json := Json.arr (JList.cons (Json.str "x") JList.nil)

def exOld : JFields := JFields.cons "k" exObjIdx JFields.nil

def exNew : JFields := JFields.cons "k" exArrX JFields.nil

def exDataA : JFields := JFields.cons "basics" (Json.str "A") JFields.nil

def exDataB : JFields := JFields.cons "basics" (Json.str "B") JFields.nil

def exDataC : JFields := JFields.cons "basics" (Json.str "C") JFields.nil

def exDoc : ResumeDoc := ⟨0, "SWE", "T", exDataA, 1⟩

def exDB : DB := ⟨[exDoc],
  [⟨0, 1, exDataA, ["basics"], some "Initial upload", ChangeType.upload⟩], 1⟩

def exMeta : JFields :=
  JFields.cons "meta" (Json.obj (JFields.cons "code" (Json.str "SWE") JFields.nil))
    JFields.nil

def exDocUp : ResumeDoc := ⟨0, "SWE", "T", exMeta, 1⟩

def exDBUp : DB := ⟨[exDocUp],
  [⟨0, 1, exMeta, ["meta"], some "Initial upload", ChangeType.upload⟩], 1⟩

def emptyDB : DB := ⟨[], [], 0⟩


theorem jlist_size_pos (xs : JList) : 1 ≤ xs.size := by
  cases xs <;> simp [JList.size]

theorem jfields_size_pos (fs : JFields) : 1 ≤ fs.size := by
  cases fs <;> simp [JFields.size]

theorem JList.size_lt_of_mem : ∀ {xs : JList} {x : Json}, x ∈ xs.toList → x.size < xs.size
  | .nil, x, h => by simp [JList.toList] at h
  | .cons y tl, x, h => by
    simp [JList.toList] at h
    rcases h with h | h
    · subst h; simp [JList.size]; omega
    · have := JList.size_lt_of_mem h; simp [JList.size]; omega

theorem JFields.size_lt_of_entry : ∀ {fs : JFields} {k : String} {v : Json},
    (k, v) ∈ fs.entries → v.size < fs.size
  | .nil, k, v, h => by simp [JFields.entries] at h
  | .cons k1 v1 tl, k, v, h => by
    simp [JFields.entries] at h
    rcases h with ⟨hk, hv⟩ | h
    · subst hv; simp [JFields.size]; omega
    · have := JFields.size_lt_of_entry h; simp [JFields.size]; omega

theorem JFields.keys_length : ∀ (fs : JFields), fs.keys.length = fs.length
  | .nil => rfl
  | .cons k v tl => by simp [JFields.keys, JFields.length, JFields.keys_length tl]

theorem JFields.mem_keys_of_entry : ∀ {fs : JFields} {k : String} {v : Json},
    (k, v) ∈ fs.entries → k ∈ fs.keys
  | .nil, k, v, h => by simp [JFields.entries] at h
  | .cons k1 v1 tl, k, v, h => by
    simp [JFields.entries] at h
    rcases h with ⟨hk, _⟩ | h
    · simp [JFields.keys, hk]
    · simp [JFields.keys]; exact Or.inr (JFields.mem_keys_of_entry h)

theorem JFields.find?_entry : ∀ {fs : JFields} {k : String} {v : Json},
    fs.find? k = some v → (k, v) ∈ fs.entries
  | .nil, k, v, h => by simp [JFields.find?] at h
  | .cons k1 v1 tl, k, v, h => by
    simp only [JFields.find?] at h
    by_cases hk : k1 == k
    · simp [hk] at h
      simp [JFields.entries]
      exact Or.inl ⟨(beq_iff_eq.mp hk).symm, h.symm⟩
    · simp [hk] at h
      simp [JFields.entries]; exact Or.inr (JFields.find?_entry h)

theorem JFields.find?_mem_keys {fs : JFields} {k : String} {v : Json}
    (h : fs.find? k = some v) : k ∈ fs.keys :=
  JFields.mem_keys_of_entry (JFields.find?_entry h)

theorem JFields.find?_isSome_of_mem : ∀ {fs : JFields} {k : String},
    k ∈ fs.keys → (fs.find? k).isSome = true
  | .nil, k, h => by simp [JFields.keys] at h
  | .cons k1 v1 tl, k, h => by
    simp [JFields.keys] at h
    rcases h with h | h
    · simp [JFields.find?, h]
    · simp only [JFields.find?]
      by_cases hk : k1 == k
      · simp [hk]
      · simp [hk]; exact JFields.find?_isSome_of_mem h

theorem JFields.find?_eq_none_of_not_mem : ∀ {fs : JFields} {k : String},
    ¬(k ∈ fs.keys) → fs.find? k = none
  | .nil, k, h => rfl
  | .cons k1 v1 tl, k, h => by
    simp [JFields.keys] at h
    simp only [JFields.find?]
    rw [if_neg, JFields.find?_eq_none_of_not_mem h.2]
    intro hk; exact h.1 (beq_iff_eq.mp hk).symm

theorem jfieldsWF_value : ∀ {fs : JFields} {k : String} {v : Json},
    jfieldsWF fs = true → (k, v) ∈ fs.entries → jsonWF v = true
  | .nil, k, v, _, h => by simp [JFields.entries] at h
  | .cons k1 v1 tl, k, v, hwf, h => by
    simp [jfieldsWF] at hwf
    simp [JFields.entries] at h
    rcases h with ⟨_, hv⟩ | h
    · subst hv; exact hwf.1
    · exact jfieldsWF_value hwf.2 h

theorem jfieldsWF_find? {fs : JFields} {k : String} {v : Json}
    (hwf : jfieldsWF fs = true) (h : fs.find? k = some v) : jsonWF v = true :=
  jfieldsWF_value hwf (JFields.find?_entry h)

theorem jlistWF_get? : ∀ {ys : JList} {i : Nat} {w : Json},
    jlistWF ys = true → ys.get? i = some w → jsonWF w = true
  | .nil, i, w, _, h => by simp [JList.get?] at h
  | .cons y tl, i, w, hwf, h => by
    simp [jlistWF] at hwf
    cases i with
    | zero => simp [JList.get?] at h; subst h; exact hwf.1
    | succ n =>
      simp only [JList.get?] at h
      exact jlistWF_get? hwf.2 h

theorem jsArrGet_wf {ys : JList} {k : String} {w : Json}
    (hwf : jlistWF ys = true) (h : jsArrGet ys k = some w) : jsonWF w = true := by
  unfold jsArrGet at h
  by_cases hl : k == "length"
  · simp [hl] at h; subst h; rfl
  · simp [hl] at h
    cases hd : decodeArrayIndex k with
    | none => simp [hd] at h
    | some i => simp [hd] at h; exact jlistWF_get? hwf h

theorem JFields.find?_of_entry_nodup : ∀ {fs : JFields} {k : String} {v : Json},
    keysNodupB fs.keys = true → (k, v) ∈ fs.entries → fs.find? k = some v
  | .nil, k, v, _, h => by simp [JFields.entries] at h
  | .cons k1 v1 tl, k, v, hnd, h => by
    simp [JFields.keys, keysNodupB] at hnd
    simp [JFields.entries] at h
    rcases h with ⟨hk, hv⟩ | h
    · subst hk; subst hv; simp [JFields.find?]
    · have hmem : k ∈ tl.keys := JFields.mem_keys_of_entry h
      simp only [JFields.find?]
      rw [if_neg]
      · exact JFields.find?_of_entry_nodup hnd.2 h
      · intro hkeq
        rw [beq_iff_eq.mp hkeq] at hnd
        exact absurd hmem hnd.1

mutual
/-- Reflexivity: `deepEqual` is reflexive on well-formed values (with duplicate object
keys, looking up a later duplicate would return the earlier value, so
well-formedness is needed). -/
theorem deepEqual_refl : ∀ (a : Json), jsonWF a = true → deepEqual a a = true
  | Json.null, _ => rfl
  | Json.bool x, _ => by simp [deepEqual]
  | Json.num x, _ => by simp [deepEqual]
  | Json.str x, _ => by simp [deepEqual]
  | Json.arr xs, h => by
    simp only [deepEqual, Bool.and_eq_true, beq_self_eq_true, true_and]
    exact deepEqualList_refl xs (by simpa [jsonWF] using h)
  | Json.obj fs, h => by
    have h' : goodKeys fs.keys = true ∧ jfieldsWF fs = true := by
      simpa [jsonWF, Bool.and_eq_true] using h
    have hnd : keysNodupB fs.keys = true := by
      have := h'.1; simp [goodKeys, Bool.and_eq_true] at this; exact this.1
    simp only [deepEqual, Bool.and_eq_true, beq_self_eq_true, true_and]
    exact deepEqualFieldsObj_of_entries fs fs h'.2
      (fun k v hin => JFields.find?_of_entry_nodup hnd hin)

theorem deepEqualList_refl : ∀ (xs : JList), jlistWF xs = true →
    deepEqualList xs xs = true
  | JList.nil, _ => rfl
  | JList.cons x tl, h => by
    have h' : jsonWF x = true ∧ jlistWF tl = true := by
      simpa [jlistWF, Bool.and_eq_true] using h
    simp only [deepEqualList, Bool.and_eq_true]
    exact ⟨deepEqual_refl x h'.1, deepEqualList_refl tl h'.2⟩

/-- If every entry of `rest` is found in `gs` with the very same value, the
object comparison loop succeeds. -/
theorem deepEqualFieldsObj_of_entries : ∀ (rest gs : JFields),
    jfieldsWF rest = true →
    (∀ k v, (k, v) ∈ rest.entries → gs.find? k = some v) →
    deepEqualFieldsObj rest gs = true
  | JFields.nil, _, _, _ => rfl
  | JFields.cons k v tl, gs, h, hfind => by
    have h' : jsonWF v = true ∧ jfieldsWF tl = true := by
      simpa [jfieldsWF, Bool.and_eq_true] using h
    have hk : gs.find? k = some v := hfind k v (by simp [JFields.entries])
    simp only [deepEqualFieldsObj, hk, Bool.and_eq_true]
    exact ⟨deepEqual_refl v h'.1,
      deepEqualFieldsObj_of_entries tl gs h'.2
        (fun k' v' hin => hfind k' v' (by simp [JFields.entries]; exact Or.inr hin))⟩
end

/-- Membership in the deduplicated key enumeration comes from the source
list. -/
theorem mem_of_insertionDedupAux : ∀ {l seen : List String} {k : String},
    k ∈ insertionDedupAux seen l → k ∈ l := by
  intro l
  induction l with
  | nil => intro seen k h; simp [insertionDedupAux] at h
  | cons x rest ih =>
    intro seen k h
    simp only [insertionDedupAux] at h
    by_cases hx : x ∈ seen
    · simp [hx] at h; exact List.mem_cons_of_mem x (ih h)
    · simp [hx] at h
      rcases h with h | h
      · simp [h]
      · exact List.mem_cons_of_mem x (ih h)

theorem mem_of_insertionDedup {l : List String} {k : String}
    (h : k ∈ insertionDedup l) : k ∈ l :=
  mem_of_insertionDedupAux h

/-- Self-diff is empty: `diffSections(X, X) = ∅` for a well-formed section map `X`. -/
theorem diffSections_self {X : JFields} (h : jsonWF (Json.obj X) = true) :
    diffSections (some X) X = [] := by
  have h' : goodKeys X.keys = true ∧ jfieldsWF X = true := by
    simpa [jsonWF, Bool.and_eq_true] using h
  simp only [diffSections]
  rw [List.filter_eq_nil_iff]
  intro k hk
  have hk' : k ∈ X.keys := by
    have := mem_of_insertionDedup hk
    simpa using this
  obtain ⟨v, hv⟩ := Option.isSome_iff_exists.mp (JFields.find?_isSome_of_mem hk')
  simp [hv, deepEqualAt, deepEqual_refl v (jfieldsWF_find? h'.2 hv)]

theorem json_size_pos (a : Json) : 1 ≤ a.size := by
  cases a <;> simp [Json.size]

theorem keySubset_iff {l m : List String} : keySubset l m = true ↔ l ⊆ m := by
  simp [keySubset, List.all_eq_true, List.elem_iff, List.subset_def]

theorem keysNodupB_iff : ∀ {l : List String}, keysNodupB l = true ↔ l.Nodup := by
  intro l
  induction l with
  | nil => simp [keysNodupB]
  | cons k rest ih =>
    simp [keysNodupB, List.nodup_cons, List.elem_iff, ih]

theorem list_toFinset_mono {l m : List String} (h : l ⊆ m) :
    l.toFinset ⊆ m.toFinset := by
  intro x hx
  exact List.mem_toFinset.mpr (h (List.mem_toFinset.mp hx))

theorem nodup_subset_length_iff {l m : List String} (h1 : l.Nodup) (h2 : m.Nodup)
    (hsub : l ⊆ m) : l.length = m.length ↔ m ⊆ l := by
  constructor
  · intro hlen
    have hfin : l.toFinset = m.toFinset := by
      apply Finset.eq_of_subset_of_card_le (list_toFinset_mono hsub)
      rw [List.toFinset_card_of_nodup h1, List.toFinset_card_of_nodup h2, hlen]
    intro x hx
    exact List.mem_toFinset.mp (hfin ▸ List.mem_toFinset.mpr hx)
  · intro hsub2
    have hfin : l.toFinset = m.toFinset :=
      Finset.Subset.antisymm (list_toFinset_mono hsub) (list_toFinset_mono hsub2)
    rw [← List.toFinset_card_of_nodup h1, ← List.toFinset_card_of_nodup h2, hfin]

/-- The comparison loops of the code and of the (amended) spec equality agree
pointwise once the entries agree; stated with the inductive hypothesis as an
explicit assumption. -/
theorem deepEqualList_congr : ∀ (xs ys : JList),
    (∀ x, x ∈ xs.toList → ∀ y, jsonWF x = true → jsonWF y = true →
      deepEqual x y = specEqA x y) →
    jlistWF xs = true → jlistWF ys = true →
    ((xs.length == ys.length) && deepEqualList xs ys) = specEqAList xs ys
  | JList.nil, JList.nil, _, _, _ => rfl
  | JList.nil, JList.cons y ty, _, _, _ => by
    simp [JList.length, deepEqualList, specEqAList]
  | JList.cons x tx, JList.nil, _, _, _ => by
    simp [JList.length, deepEqualList, specEqAList]
  | JList.cons x tx, JList.cons y ty, hIH, h1, h2 => by
    have h1' : jsonWF x = true ∧ jlistWF tx = true := by
      simpa [jlistWF, Bool.and_eq_true] using h1
    have h2' : jsonWF y = true ∧ jlistWF ty = true := by
      simpa [jlistWF, Bool.and_eq_true] using h2
    have hx : deepEqual x y = specEqA x y :=
      hIH x (by simp [JList.toList]) y h1'.1 h2'.1
    have htail : ((tx.length == ty.length) && deepEqualList tx ty) = specEqAList tx ty :=
      deepEqualList_congr tx ty
        (fun x' hx' y' hw1 hw2 => hIH x' (by simp [JList.toList]; exact Or.inr hx') y' hw1 hw2)
        h1'.2 h2'.2
    simp only [deepEqualList, specEqAList, JList.length, hx, ← htail]
    have hlen : ((tx.length + 1 == ty.length + 1)) = (tx.length == ty.length) := by
      simp [Nat.succ_inj]
    rw [hlen, Bool.and_left_comm]

theorem deepEqualFieldsArr_congr : ∀ (rest : JFields) (ys : JList),
    (∀ k v, (k, v) ∈ rest.entries → ∀ y, jsonWF v = true → jsonWF y = true →
      deepEqual v y = specEqA v y) →
    jfieldsWF rest = true → jlistWF ys = true →
    deepEqualFieldsArr rest ys = specEqAFieldsArr rest ys
  | JFields.nil, _, _, _, _ => rfl
  | JFields.cons k v tl, ys, hIH, h1, h2 => by
    have h1' : jsonWF v = true ∧ jfieldsWF tl = true := by
      simpa [jfieldsWF, Bool.and_eq_true] using h1
    have htail : deepEqualFieldsArr tl ys = specEqAFieldsArr tl ys :=
      deepEqualFieldsArr_congr tl ys
        (fun k' v' h' y hw1 hw2 => hIH k' v' (by simp [JFields.entries]; exact Or.inr h') y hw1 hw2)
        h1'.2 h2
    simp only [deepEqualFieldsArr, specEqAFieldsArr, htail]
    cases hg : jsArrGet ys k with
    | none => rfl
    | some w =>
      have hw : jsonWF w = true := jsArrGet_wf h2 hg
      show (deepEqual v w && specEqAFieldsArr tl ys) =
        (specEqA v w && specEqAFieldsArr tl ys)
      rw [hIH k v (by simp [JFields.entries]) w h1'.1 hw]

theorem deepEqualFieldsObj_congr : ∀ (rest gs : JFields),
    (∀ k v, (k, v) ∈ rest.entries → ∀ y, jsonWF v = true → jsonWF y = true →
      deepEqual v y = specEqA v y) →
    jfieldsWF rest = true → jfieldsWF gs = true →
    deepEqualFieldsObj rest gs = specEqAFields rest gs
  | JFields.nil, _, _, _, _ => rfl
  | JFields.cons k v tl, gs, hIH, h1, h2 => by
    have h1' : jsonWF v = true ∧ jfieldsWF tl = true := by
      simpa [jfieldsWF, Bool.and_eq_true] using h1
    have htail : deepEqualFieldsObj tl gs = specEqAFields tl gs :=
      deepEqualFieldsObj_congr tl gs
        (fun k' v' h' y hw1 hw2 => hIH k' v' (by simp [JFields.entries]; exact Or.inr h') y hw1 hw2)
        h1'.2 h2
    simp only [deepEqualFieldsObj, specEqAFields, htail]
    cases hg : gs.find? k with
    | none => rfl
    | some w =>
      have hw : jsonWF w = true := jfieldsWF_find? h2 hg
      show (deepEqual v w && specEqAFields tl gs) =
        (specEqA v w && specEqAFields tl gs)
      rw [hIH k v (by simp [JFields.entries]) w h1'.1 hw]

/-- A successful spec-level object comparison means every key of the left
object is found on the right. -/
theorem specEqAFields_subset : ∀ {fs gs : JFields},
    specEqAFields fs gs = true → keySubset fs.keys gs.keys = true
  | JFields.nil, _, _ => rfl
  | JFields.cons k v tl, gs, h => by
    simp only [specEqAFields, Bool.and_eq_true] at h
    have htail := specEqAFields_subset h.2
    rw [keySubset_iff] at htail ⊢
    intro x hx
    simp [JFields.keys] at hx
    rcases hx with hx | hx
    · subst hx
      cases hg : gs.find? x with
      | none => rw [hg] at h; simp at h
      | some w => exact JFields.find?_mem_keys hg
    · exact htail hx

theorem deepEqual_eq_specEqA_size : ∀ (n : Nat) (a b : Json), a.size ≤ n →
    jsonWF a = true → jsonWF b = true → deepEqual a b = specEqA a b := by
  intro n
  induction n with
  | zero => intro a b hsize _ _; have := json_size_pos a; omega
  | succ n ih =>
    intro a b hsize h1 h2
    cases a with
    | null => cases b <;> rfl
    | bool x => cases b <;> rfl
    | num x => cases b <;> rfl
    | str x => cases b <;> rfl
    | arr xs =>
      cases b with
      | arr ys =>
        have hsz : xs.size ≤ n := by
          simp [Json.size] at hsize; omega
        have h1' : jlistWF xs = true := by simpa [jsonWF] using h1
        have h2' : jlistWF ys = true := by simpa [jsonWF] using h2
        have hstep : ((xs.length == ys.length) && deepEqualList xs ys) = specEqAList xs ys :=
          deepEqualList_congr xs ys
          (fun x hx y hw1 hw2 =>
            ih x y (by have := JList.size_lt_of_mem hx; omega) hw1 hw2)
          h1' h2'
        simpa only [deepEqual, specEqA] using hstep
      | null => rfl
      | bool y => rfl
      | num y => rfl
      | str y => rfl
      | obj gs => rfl
    | obj fs =>
      have hsz : fs.size ≤ n := by
        simp [Json.size] at hsize; omega
      have hgood : goodKeys fs.keys = true ∧ jfieldsWF fs = true := by
        simpa [jsonWF, Bool.and_eq_true] using h1
      have hIHf : ∀ k v, (k, v) ∈ fs.entries → ∀ y, jsonWF v = true →
          jsonWF y = true → deepEqual v y = specEqA v y :=
        fun k v hin y hw1 hw2 =>
          ih v y (by have := JFields.size_lt_of_entry hin; omega) hw1 hw2
      cases b with
      | arr ys =>
        have h2' : jlistWF ys = true := by simpa [jsonWF] using h2
        simp only [deepEqual, specEqA]
        rw [deepEqualFieldsArr_congr fs ys hIHf hgood.2 h2']
      | obj gs =>
        have hgood2 : goodKeys gs.keys = true ∧ jfieldsWF gs = true := by
          simpa [jsonWF, Bool.and_eq_true] using h2
        have hnd1 : fs.keys.Nodup := by
          have := hgood.1; simp [goodKeys, Bool.and_eq_true] at this
          exact keysNodupB_iff.mp this.1
        have hnd2 : gs.keys.Nodup := by
          have := hgood2.1; simp [goodKeys, Bool.and_eq_true] at this
          exact keysNodupB_iff.mp this.1
        simp only [deepEqual, specEqA]
        rw [deepEqualFieldsObj_congr fs gs hIHf hgood.2 hgood2.2]
        cases hP : specEqAFields fs gs with
        | false => simp
        | true =>
          have hsub1 : keySubset fs.keys gs.keys = true := specEqAFields_subset hP
          have hsub1' : fs.keys ⊆ gs.keys := keySubset_iff.mp hsub1
          rw [hsub1]
          simp only [Bool.true_and, Bool.and_true]
          by_cases hlen : fs.length = gs.length
          · have hkeys : fs.keys.length = gs.keys.length := by
              rw [JFields.keys_length, JFields.keys_length, hlen]
            have hms : gs.keys ⊆ fs.keys :=
              (nodup_subset_length_iff hnd1 hnd2 hsub1').mp hkeys
            have hks : keySubset gs.keys fs.keys = true := keySubset_iff.mpr hms
            rw [hks]; simp [hlen]
          · have h1f : (fs.length == gs.length) = false := by simp [hlen]
            have h2f : keySubset gs.keys fs.keys = false := by
              cases hks : keySubset gs.keys fs.keys with
              | false => rfl
              | true =>
                have hms : gs.keys ⊆ fs.keys := keySubset_iff.mp hks
                have hkeys : fs.keys.length = gs.keys.length :=
                  (nodup_subset_length_iff hnd1 hnd2 hsub1').mpr hms
                rw [JFields.keys_length, JFields.keys_length] at hkeys
                exact absurd hkeys hlen
            rw [h1f, h2f]
      | null => rfl
      | bool y => rfl
      | num y => rfl
      | str y => rfl

/-- On well-formed values the code's `deepEqual` coincides with the amended
spec equality `specEqA`. -/
theorem deepEqual_eq_specEqA (a b : Json) (h1 : jsonWF a = true)
    (h2 : jsonWF b = true) : deepEqual a b = specEqA a b :=
  deepEqual_eq_specEqA_size a.size a b le_rfl h1 h2

/-- On well-formed maps the code's diff is exactly the spec's key-union diff
computed with the amended equality. -/
theorem diffSections_eq_specDiffA {old next : JFields}
    (h1 : jsonWF (Json.obj old) = true) (h2 : jsonWF (Json.obj next) = true) :
    diffSections (some old) next = specDiffA old next := by
  have h1' : jfieldsWF old = true := by
    have := h1; simp [jsonWF, Bool.and_eq_true] at this; exact this.2
  have h2' : jfieldsWF next = true := by
    have := h2; simp [jsonWF, Bool.and_eq_true] at this; exact this.2
  simp only [diffSections, specDiffA]
  apply List.filter_congr
  intro k _
  have hpt : deepEqualAt (old.find? k) (next.find? k) =
      specEqAt specEqA (old.find? k) (next.find? k) := by
    cases ho : old.find? k with
    | none => cases hn : next.find? k <;> rfl
    | some v =>
      cases hn : next.find? k with
      | none => rfl
      | some w =>
        show deepEqual v w = specEqA v w
        exact deepEqual_eq_specEqA v w (jfieldsWF_find? h1' ho) (jfieldsWF_find? h2' hn)
  rw [hpt]

theorem JFields.find?_append : ∀ (a b : JFields) (k : String),
    (a.append b).find? k =
      (match a.find? k with
       | some v => some v
       | none => b.find? k)
  | JFields.nil, b, k => rfl
  | JFields.cons k1 v1 tl, b, k => by
    simp only [JFields.append, JFields.find?]
    by_cases hk : k1 == k
    · simp [hk]
    · simp [hk, JFields.find?_append tl b k]

theorem spreadLeft_find? : ∀ (a b : JFields) (k : String),
    (spreadLeft a b).find? k =
      (match a.find? k with
       | some v => some ((b.find? k).getD v)
       | none => none)
  | JFields.nil, b, k => rfl
  | JFields.cons k1 v1 tl, b, k => by
    simp only [spreadLeft, JFields.find?]
    by_cases hk : k1 == k
    · have hkk : k1 = k := beq_iff_eq.mp hk
      subst hkk
      simp
      cases b.find? k1 <;> simp
    · simp [hk, spreadLeft_find? tl b k]

theorem JFields.filterKeys_find? : ∀ (b : JFields) (p : String → Bool) (k : String),
    (b.filterKeys p).find? k = (if p k then b.find? k else none)
  | JFields.nil, p, k => by simp [JFields.filterKeys, JFields.find?]
  | JFields.cons k1 v1 tl, p, k => by
    simp only [JFields.filterKeys]
    by_cases hp : p k1
    · rw [if_pos hp]
      simp only [JFields.find?]
      by_cases hk : k1 == k
      · have hkk : k1 = k := beq_iff_eq.mp hk
        subst hkk
        simp [hp]
      · simp [hk, JFields.filterKeys_find? tl p k]
    · rw [if_neg hp]
      rw [JFields.filterKeys_find? tl p k]
      by_cases hk : k1 == k
      · have hkk : k1 = k := beq_iff_eq.mp hk
        subst hkk
        simp [hp, JFields.find?]
      · simp [JFields.find?, hk]

theorem JFields.find?_none_of_isSome_false {fs : JFields} {k : String}
    (h : fs.find? k = none) : ¬(k ∈ fs.keys) := by
  intro hmem
  have := JFields.find?_isSome_of_mem hmem
  rw [h] at this
  simp at this

/-- Per-key behaviour of the object spread `{ ...a, ...b }`: the patch value
where the patch names the key, the old value otherwise. -/
theorem jsSpread_find? (a b : JFields) (k : String) :
    (jsSpread a b).find? k =
      (match b.find? k with
       | some w => some w
       | none => a.find? k) := by
  unfold jsSpread
  rw [JFields.find?_append, spreadLeft_find?, JFields.filterKeys_find?]
  cases ha : a.find? k with
  | some v => cases hb : b.find? k <;> simp
  | none =>
    have hnotmem : ¬(k ∈ a.keys) := JFields.find?_none_of_isSome_false ha
    have hc : a.keys.contains k = false := by
      rw [← Bool.not_eq_true]
      intro hcc
      exact hnotmem (List.elem_iff.mp hcc)
    cases hb : b.find? k <;> simp [hc, hnotmem]

theorem findDoc_mem {db : DB} {id : Nat} {doc : ResumeDoc}
    (h : findDoc db id = some doc) : doc ∈ db.docs ∧ doc.rid = id := by
  unfold findDoc at h
  refine ⟨List.mem_of_find?_eq_some h, ?_⟩
  have hp := @List.find?_some ResumeDoc (fun d => d.rid == id) doc db.docs h
  exact beq_iff_eq.mp hp

theorem find?_map_replace : ∀ (l : List ResumeDoc) (doc' : ResumeDoc) (id : Nat),
    doc'.rid = id →
    (l.find? (fun d => d.rid == id)).isSome = true →
    (l.map (fun d => if d.rid == doc'.rid then doc' else d)).find?
      (fun d => d.rid == id) = some doc' := by
  intro l
  induction l with
  | nil => intro doc' id _ hsome; simp [List.find?] at hsome
  | cons d tl ih =>
    intro doc' id hrid hsome
    simp only [List.map]
    by_cases hd : d.rid == id
    · have : (d.rid == doc'.rid) = true := by rw [hrid]; exact hd
      rw [this]
      simp only [if_true]
      have : (doc'.rid == id) = true := by rw [hrid]; exact beq_self_eq_true id
      simp [List.find?, this]
    · have hne : (d.rid == doc'.rid) = false := by
        rw [hrid]; exact Bool.of_not_eq_true hd
      rw [hne]
      simp only [Bool.false_eq_true, if_false]
      simp only [List.find?_cons, Bool.of_not_eq_true hd] at hsome ⊢
      exact ih doc' id hrid hsome

/-- Saving a loaded document overwrites the stored row with that id. -/
theorem findDoc_saveDoc {db : DB} {id : Nat} {doc' w : ResumeDoc}
    (hrid : doc'.rid = id) (h : findDoc db id = some w) :
    findDoc (saveDoc db doc') id = some doc' := by
  unfold findDoc saveDoc
  apply find?_map_replace db.docs doc' id hrid
  unfold findDoc at h
  rw [h]
  rfl

theorem saveDoc_versions (db : DB) (doc : ResumeDoc) :
    (saveDoc db doc).versions = db.versions := rfl

theorem createVersion_not_has {db : DB} {v : RVersion}
    (h : hasVersion db v.resume_id v.version_number = false) :
    createVersion db v = some { db with versions := db.versions ++ [v] } := by
  simp [createVersion, h]

theorem createVersion_has {db : DB} {v : RVersion}
    (h : hasVersion db v.resume_id v.version_number = true) :
    createVersion db v = none := by
  simp [createVersion, h]

theorem invB_iff (db : DB) : invB db = true ↔
    ∀ doc ∈ db.docs, ∃ v ∈ db.versions, v.resume_id = doc.rid ∧
      v.version_number = doc.current_version ∧
      deepEqual (Json.obj doc.data) (Json.obj v.data) = true := by
  simp [invB, List.all_eq_true, List.any_eq_true, Bool.and_eq_true, beq_iff_eq,
    and_assoc]

theorem stateOK_of_mem {db : DB} {v : RVersion} (h : stateOKb db = true)
    (hm : v ∈ db.versions) :
    jsonWF (Json.obj v.data) = true ∧ v.resume_id < db.nextId := by
  rw [stateOKb, List.all_eq_true] at h
  have := h v hm
  simpa [Bool.and_eq_true] using this

theorem findVersion_mem {db : DB} {id n : Nat} {v : RVersion}
    (h : findVersion db id n = some v) :
    v ∈ db.versions ∧ v.resume_id = id ∧ v.version_number = n := by
  unfold findVersion at h
  refine ⟨List.mem_of_find?_eq_some h, ?_⟩
  have hp := @List.find?_some RVersion
    (fun v => v.resume_id == id && v.version_number == n) v db.versions h
  simpa [Bool.and_eq_true, beq_iff_eq] using hp

theorem hasVersion_false_iff {db : DB} {id n : Nat} :
    hasVersion db id n = false ↔
      ∀ v ∈ db.versions, ¬(v.resume_id = id ∧ v.version_number = n) := by
  unfold hasVersion findVersion
  constructor
  · intro h v hv hc
    cases hfind : List.find? (fun v => v.resume_id == id && v.version_number == n)
        db.versions with
    | some w => rw [hfind] at h; simp at h
    | none =>
      rw [List.find?_eq_none] at hfind
      exact hfind v hv (by simp [beq_iff_eq, hc.1, hc.2])
  · intro h
    cases hfind : List.find? (fun v => v.resume_id == id && v.version_number == n)
        db.versions with
    | none => rfl
    | some w =>
      have hm := List.mem_of_find?_eq_some hfind
      have hp := @List.find?_some RVersion
        (fun v => v.resume_id == id && v.version_number == n) w db.versions hfind
      simp [Bool.and_eq_true, beq_iff_eq] at hp
      exact absurd ⟨hp.1, hp.2⟩ (h w hm)

theorem createVersion_some_eq {db db' : DB} {v : RVersion}
    (h : createVersion db v = some db') :
    db' = { db with versions := db.versions ++ [v] } := by
  unfold createVersion at h
  by_cases hh : hasVersion db v.resume_id v.version_number
  · simp [hh] at h
  · simp [hh] at h; exact h.symm

theorem invB_saveDoc_of_witness {db : DB} {doc1 : ResumeDoc} (h : invB db = true)
    (hw : ∃ v ∈ db.versions, v.resume_id = doc1.rid ∧
      v.version_number = doc1.current_version ∧
      deepEqual (Json.obj doc1.data) (Json.obj v.data) = true) :
    invB (saveDoc db doc1) = true := by
  rw [invB_iff] at h ⊢
  intro d hd
  simp only [saveDoc, List.mem_map] at hd
  obtain ⟨d0, hd0, hfd⟩ := hd
  by_cases hcase : (d0.rid == doc1.rid) = true
  · rw [if_pos hcase] at hfd
    subst hfd
    exact hw
  · rw [if_neg (by simpa using hcase)] at hfd
    subst hfd
    exact h d0 hd0

theorem invB_append_versions {db : DB} {vs : List RVersion} (h : invB db = true) :
    invB { db with versions := db.versions ++ vs } = true := by
  rw [invB_iff] at h ⊢
  intro doc hdoc
  obtain ⟨v, hv, hprop⟩ := h doc hdoc
  exact ⟨v, List.mem_append_left _ hv, hprop⟩

theorem invB_createOp (db : DB) (d : Option JFields) (m t : Option String)
    (hok : stateOKb db = true)
    (hwf : (match d with | some d' => jsonWF (Json.obj d') | none => true) = true)
    (hinv : invB db = true) : invB (createOp db d m t).1 = true := by
  unfold createOp
  cases d with
  | none => exact hinv
  | some d' =>
    simp only at hwf
    cases hmc : (match truthyStr m with
      | some s => some s
      | none => metaCodeOfData d') with
    | none => simp only [hmc]; exact hinv
    | some mcv =>
      simp only [hmc]
      set name := (match nameFullOf d' with | some s => s | none => "Untitled") with hname
      set ttl := (match truthyStr t with
        | some s => s
        | none => name ++ " – " ++ mcv) with httl
      set doc : ResumeDoc := ⟨db.nextId, mcv, ttl, d', 1⟩ with hdoc
      set db1 : DB := { db with docs := db.docs ++ [doc], nextId := db.nextId + 1 }
        with hdb1
      set ver : RVersion := ⟨doc.rid, 1, d', [], none, ChangeType.edit⟩ with hver
      have hfresh : hasVersion db1 ver.resume_id ver.version_number = false := by
        rw [hasVersion_false_iff]
        intro v hv hc
        have hb := (stateOK_of_mem hok (by simpa [hdb1] using hv)).2
        have : v.resume_id = db.nextId := hc.1
        omega
      rw [createVersion_not_has hfresh]
      simp only
      rw [invB_iff]
      intro dd hdd
      simp only [hdb1] at hdd
      rcases List.mem_append.mp hdd with hdd | hdd
      · obtain ⟨v, hv, hprop⟩ := (invB_iff db).mp hinv dd hdd
        exact ⟨v, List.mem_append_left _ hv, hprop⟩
      · have hddoc : dd = doc := by simpa using hdd
        subst hddoc
        refine ⟨ver, List.mem_append_right _ (by simp), rfl, rfl, ?_⟩
        exact deepEqual_refl (Json.obj d') hwf

theorem applyTitle_rid (doc : ResumeDoc) (t : Option String) :
    (applyTitle doc t).rid = doc.rid := by
  unfold applyTitle; cases truthyStr t <;> rfl

theorem applyTitle_data (doc : ResumeDoc) (t : Option String) :
    (applyTitle doc t).data = doc.data := by
  unfold applyTitle; cases truthyStr t <;> rfl

theorem applyTitle_cv (doc : ResumeDoc) (t : Option String) :
    (applyTitle doc t).current_version = doc.current_version := by
  unfold applyTitle; cases truthyStr t <;> rfl

theorem applyMetaCode_rid (doc : ResumeDoc) (m : Option String) :
    (applyMetaCode doc m).rid = doc.rid := by
  unfold applyMetaCode; cases truthyStr m <;> rfl

theorem applyMetaCode_data (doc : ResumeDoc) (m : Option String) :
    (applyMetaCode doc m).data = doc.data := by
  unfold applyMetaCode; cases truthyStr m <;> rfl

theorem applyMetaCode_cv (doc : ResumeDoc) (m : Option String) :
    (applyMetaCode doc m).current_version = doc.current_version := by
  unfold applyMetaCode; cases truthyStr m <;> rfl

theorem invB_putOpWith (crash : Bool) (db : DB) (id : Nat) (d : Option JFields)
    (t m : Option String)
    (hwf : (match d with | some d' => jsonWF (Json.obj d') | none => true) = true)
    (hinv : invB db = true) : invB (putOpWith crash db id d t m).1 = true := by
  unfold putOpWith
  cases d with
  | none => exact hinv
  | some d' =>
    simp only at hwf
    cases hfd : findDoc db id with
    | none => simp only [hfd]; exact hinv
    | some doc =>
      simp only [hfd]
      have hdocmem := findDoc_mem hfd
      by_cases hch : (diffSections (some doc.data) d').isEmpty
      · simp only [hch, if_true]
        by_cases hup : ((truthyStr t).isSome || (truthyStr m).isSome) = true
        · simp only [hup, if_true]
          apply invB_saveDoc_of_witness hinv
          obtain ⟨v, hv, h1, h2, h3⟩ := (invB_iff db).mp hinv doc hdocmem.1
          refine ⟨v, hv, ?_, ?_, ?_⟩
          · rw [applyMetaCode_rid, applyTitle_rid]; exact h1
          · rw [applyMetaCode_cv, applyTitle_cv]; exact h2
          · rw [applyMetaCode_data, applyTitle_data]; exact h3
        · simp only [hup, if_false]; exact hinv
      · simp only [hch, if_false]
        set ver : RVersion := ⟨id, doc.current_version + 1, d',
          diffSections (some doc.data) d',
          some (generateChangeSummary (diffSections (some doc.data) d')),
          ChangeType.edit⟩ with hver
        cases hcv : createVersion db ver with
        | none => simp only [hcv]; exact hinv
        | some db1 =>
          simp only [hcv]
          have hdb1 := createVersion_some_eq hcv
          have hinv1 : invB db1 = true := by rw [hdb1]; exact invB_append_versions hinv
          cases crash with
          | true => exact hinv1
          | false =>
            apply invB_saveDoc_of_witness hinv1
            refine ⟨ver, ?_, ?_, ?_, ?_⟩
            · rw [hdb1]; exact List.mem_append_right _ (by simp)
            · show ver.resume_id = _
              rw [hver]
              simp only [applyMetaCode_rid, applyTitle_rid]
              exact hdocmem.2.symm
            · rfl
            · exact deepEqual_refl (Json.obj d') hwf

theorem invB_uploadOp (db : DB) (data : JFields) (title : Option String)
    (hok : stateOKb db = true) (hwf : jsonWF (Json.obj data) = true)
    (hinv : invB db = true) : invB (uploadOp db data title).1 = true := by
  unfold uploadOp
  by_cases hshape : (!((match data.find? "meta" with
      | some v => jsTruthy v
      | none => false) || (match data.find? "basics" with
      | some v => jsTruthy v
      | none => false))) = true
  · simp only [hshape, if_true]; exact hinv
  · simp only [Bool.of_not_eq_true hshape, Bool.false_eq_true, if_false]
    cases hmc : metaCodeOfData data with
    | none => simp only; exact hinv
    | some mc =>
      simp only
      cases hex : db.docs.find? (fun dd => dd.meta_code == mc) with
      | some existing =>
        simp only
        set ver : RVersion := ⟨existing.rid, existing.current_version + 1, data,
          diffSections (some existing.data) data,
          some (generateChangeSummary (diffSections (some existing.data) data)),
          ChangeType.upload⟩ with hver
        cases hcv : createVersion db ver with
        | none => simp only; exact hinv
        | some db1 =>
          simp only
          have hdb1 := createVersion_some_eq hcv
          have hinv1 : invB db1 = true := by
            rw [hdb1]; exact invB_append_versions hinv
          apply invB_saveDoc_of_witness hinv1
          refine ⟨ver, ?_, rfl, rfl, ?_⟩
          · rw [hdb1]; exact List.mem_append_right _ (by simp)
          · exact deepEqual_refl (Json.obj data) hwf
      | none =>
        simp only
        set ttl := uploadTitle data title mc with httl
        set doc : ResumeDoc := ⟨db.nextId, mc, ttl, data, 1⟩ with hdoc
        set db1 : DB := { db with docs := db.docs ++ [doc], nextId := db.nextId + 1 }
          with hdb1
        set ver : RVersion := ⟨doc.rid, 1, data, data.keys,
          some "Initial upload", ChangeType.upload⟩ with hver
        have hfresh : hasVersion db1 ver.resume_id ver.version_number = false := by
          rw [hasVersion_false_iff]
          intro v hv hc
          have hb := (stateOK_of_mem hok (by simpa [hdb1] using hv)).2
          have : v.resume_id = db.nextId := hc.1
          omega
        rw [createVersion_not_has hfresh]
        simp only
        rw [invB_iff]
        intro dd hdd
        simp only [hdb1] at hdd
        rcases List.mem_append.mp hdd with hdd | hdd
        · obtain ⟨v, hv, hprop⟩ := (invB_iff db).mp hinv dd hdd
          exact ⟨v, List.mem_append_left _ hv, hprop⟩
        · have hddoc : dd = doc := by simpa using hdd
          subst hddoc
          refine ⟨ver, List.mem_append_right _ (by simp), rfl, rfl, ?_⟩
          exact deepEqual_refl (Json.obj data) hwf

theorem invB_rollbackOp (db : DB) (id n : Nat)
    (hok : stateOKb db = true) (hinv : invB db = true) :
    invB (rollbackOp db id n).1 = true := by
  unfold rollbackOp
  by_cases hz : (n == 0) = true
  · simp only [hz, if_true]; exact hinv
  · simp only [Bool.of_not_eq_true hz, Bool.false_eq_true, if_false]
    cases hfv : findVersion db id n with
    | none => simp only; exact hinv
    | some target =>
      simp only
      cases hfd : findDoc db id with
      | none => simp only; exact hinv
      | some doc =>
        simp only
        have hdocmem := findDoc_mem hfd
        have htmem := findVersion_mem hfv
        have htwf : jsonWF (Json.obj target.data) = true :=
          (stateOK_of_mem hok htmem.1).1
        set ver : RVersion := ⟨id, doc.current_version + 1, target.data,
          diffSections (some doc.data) target.data,
          some ("Rolled back to v" ++ toString n), ChangeType.rollback⟩ with hver
        cases hcv : createVersion db ver with
        | none => simp only; exact hinv
        | some db1 =>
          simp only
          have hdb1 := createVersion_some_eq hcv
          have hinv1 : invB db1 = true := by
            rw [hdb1]; exact invB_append_versions hinv
          apply invB_saveDoc_of_witness hinv1
          refine ⟨ver, ?_, ?_, rfl, ?_⟩
          · rw [hdb1]; exact List.mem_append_right _ (by simp)
          · show ver.resume_id = doc.rid
            rw [hver]; exact hdocmem.2.symm
          · exact deepEqual_refl (Json.obj target.data) htwf

/-- The §3 invariant is preserved by every completed create, Replace, Ingest
and Rollback request. -/
theorem invB_preserved (db : DB) (op : WriteOp) (hok : stateOKb db = true)
    (hwf : opWF op = true) (hinv : invB db = true) :
    invB (applyOp db op).1 = true := by
  cases op with
  | createRes d m t => exact invB_createOp db d m t hok (by simpa [opWF] using hwf) hinv
  | replace id d t m =>
    exact invB_putOpWith false db id d t m (by simpa [opWF] using hwf) hinv
  | ingest d t => exact invB_uploadOp db d t hok (by simpa [opWF] using hwf) hinv
  | rollbackTo id n => exact invB_rollbackOp db id n hok hinv

theorem option_eq_none_of_isSome_false {α : Type} {o : Option α}
    (h : o.isSome = false) : o = none := by
  cases o with
  | none => rfl
  | some a => simp at h

/-- Replace on an empty diff: report `no_change`, touch no version, keep
`data` and `current_version`, update only title / classifier. -/
theorem putOp_empty_diff {db : DB} {id : Nat} {d : JFields} {t m : Option String}
    {doc : ResumeDoc} (hfd : findDoc db id = some doc)
    (hch : diffSections (some doc.data) d = []) :
    (putOp db id (some d) t m).2 = Resp.ok true ∧
    (putOp db id (some d) t m).1.versions = db.versions ∧
    findDoc (putOp db id (some d) t m).1 id =
      some (applyMetaCode (applyTitle doc t) m) := by
  unfold putOp putOpWith
  simp only [hfd]
  have hche : (diffSections (some doc.data) d).isEmpty = true := by
    rw [hch]; rfl
  simp only [hche, if_true]
  by_cases hup : ((truthyStr t).isSome || (truthyStr m).isSome) = true
  · simp only [hup, if_true]
    refine ⟨by trivial, by trivial, ?_⟩
    apply findDoc_saveDoc _ hfd
    rw [applyMetaCode_rid, applyTitle_rid]
    exact (findDoc_mem hfd).2
  · have hup' := Bool.of_not_eq_true hup
    simp only [hup', Bool.false_eq_true, if_false]
    have ht : truthyStr t = none := by
      rcases Bool.or_eq_false_iff.mp hup' with ⟨h1, _⟩
      exact option_eq_none_of_isSome_false h1
    have hm : truthyStr m = none := by
      rcases Bool.or_eq_false_iff.mp hup' with ⟨_, h2⟩
      exact option_eq_none_of_isSome_false h2
    refine ⟨by trivial, by trivial, ?_⟩
    rw [show applyMetaCode (applyTitle doc t) m = doc by
      unfold applyMetaCode applyTitle; rw [ht, hm]]
    exact hfd

/-- Replace on a non-empty diff: append exactly one `edit` version numbered
`current_version + 1` and advance the document to the new payload. -/
theorem putOp_nonempty_diff {db : DB} {id : Nat} {d : JFields} {t m : Option String}
    {doc : ResumeDoc} (hfd : findDoc db id = some doc)
    (hch : diffSections (some doc.data) d ≠ [])
    (hfresh : hasVersion db id (doc.current_version + 1) = false) :
    (putOp db id (some d) t m).2 = Resp.ok false ∧
    (putOp db id (some d) t m).1.versions = db.versions ++
      [⟨id, doc.current_version + 1, d, diffSections (some doc.data) d,
        some (generateChangeSummary (diffSections (some doc.data) d)),
        ChangeType.edit⟩] ∧
    findDoc (putOp db id (some d) t m).1 id =
      some { applyMetaCode (applyTitle doc t) m with
        data := d, current_version := doc.current_version + 1 } := by
  unfold putOp putOpWith
  simp only [hfd]
  have hche : (diffSections (some doc.data) d).isEmpty = false := by
    cases hd : diffSections (some doc.data) d with
    | nil => exact absurd hd hch
    | cons a l => rfl
  simp only [hche, Bool.false_eq_true, if_false]
  rw [createVersion_not_has hfresh]
  simp only
  refine ⟨by trivial, by trivial, ?_⟩
  apply findDoc_saveDoc
  · show (applyMetaCode (applyTitle doc t) m).rid = id
    rw [applyMetaCode_rid, applyTitle_rid]
    exact (findDoc_mem hfd).2
  · show findDoc { db with versions := _ } id = some doc
    exact hfd

/-- Replace never persists a version with an empty recorded diff: every
version present after the call was either already stored or carries a
non-empty `changed_sections`. -/
theorem putOp_no_empty_changed (db : DB) (id : Nat) (d : Option JFields)
    (t m : Option String) :
    ∀ v ∈ (putOp db id d t m).1.versions,
      v ∈ db.versions ∨ v.changed_sections ≠ [] := by
  unfold putOp putOpWith
  cases d with
  | none => intro v hv; exact Or.inl hv
  | some d' =>
    cases hfd : findDoc db id with
    | none => intro v hv; exact Or.inl hv
    | some doc =>
      simp only [hfd]
      by_cases hch : (diffSections (some doc.data) d').isEmpty
      · simp only [hch, if_true]
        by_cases hup : ((truthyStr t).isSome || (truthyStr m).isSome) = true
        · simp only [hup, if_true]
          intro v hv
          exact Or.inl hv
        · simp only [Bool.of_not_eq_true hup, Bool.false_eq_true, if_false]
          intro v hv
          exact Or.inl hv
      · have hche : (diffSections (some doc.data) d').isEmpty = false := by
          cases hdd : (diffSections (some doc.data) d').isEmpty with
          | false => rfl
          | true => exact absurd hdd hch
        simp only [hche, Bool.false_eq_true, if_false]
        cases hcv : createVersion db ⟨id, doc.current_version + 1, d',
            diffSections (some doc.data) d',
            some (generateChangeSummary (diffSections (some doc.data) d')),
            ChangeType.edit⟩ with
        | none => intro v hv; exact Or.inl hv
        | some db1 =>
          simp only
          have hdb1 := createVersion_some_eq hcv
          intro v hv
          rw [saveDoc_versions, hdb1] at hv
          rcases List.mem_append.mp hv with hv | hv
          · exact Or.inl hv
          · have : v = ⟨id, doc.current_version + 1, d',
                diffSections (some doc.data) d',
                some (generateChangeSummary (diffSections (some doc.data) d')),
                ChangeType.edit⟩ := by simpa using hv
            subst this
            right
            simp only
            intro hc
            rw [hc] at hch
            exact hch rfl

/-- In every outcome of a Replace — including a crash between the version
insert and the document save — the current pointer only ever moves to
`current_version + 1`, and only when a version row with exactly that number
and the new payload is present: the append strictly precedes the pointer
write. -/
theorem putOpWith_pointer_version (crash : Bool) (db : DB) (id : Nat)
    (dOpt : Option JFields) (t m : Option String) {doc doc' : ResumeDoc}
    (hfd : findDoc db id = some doc)
    (hfd' : findDoc (putOpWith crash db id dOpt t m).1 id = some doc')
    (hne : doc'.current_version ≠ doc.current_version) :
    doc'.current_version = doc.current_version + 1 ∧
    ∃ v ∈ (putOpWith crash db id dOpt t m).1.versions,
      v.resume_id = id ∧ v.version_number = doc'.current_version ∧
      dOpt = some v.data := by
  unfold putOpWith at hfd' ⊢
  cases dOpt with
  | none =>
    rw [hfd] at hfd'
    have : doc = doc' := by simpa using hfd'
    subst this
    exact absurd rfl hne
  | some d =>
    simp only [hfd] at hfd' ⊢
    by_cases hch : (diffSections (some doc.data) d).isEmpty
    · simp only [hch, if_true] at hfd' ⊢
      by_cases hup : ((truthyStr t).isSome || (truthyStr m).isSome) = true
      · simp only [hup, if_true] at hfd' ⊢
        set doc1 := applyMetaCode (applyTitle doc t) m with hdoc1
        have h1 : findDoc (saveDoc db doc1) id = some doc1 := by
          apply findDoc_saveDoc _ hfd
          rw [hdoc1, applyMetaCode_rid, applyTitle_rid]
          exact (findDoc_mem hfd).2
        rw [h1] at hfd'
        have : doc1 = doc' := by simpa using hfd'
        subst this
        rw [hdoc1, applyMetaCode_cv, applyTitle_cv] at hne
        exact absurd rfl hne
      · simp only [Bool.of_not_eq_true hup, Bool.false_eq_true, if_false] at hfd' ⊢
        rw [hfd] at hfd'
        have : doc = doc' := by simpa using hfd'
        subst this
        exact absurd rfl hne
    · have hche : (diffSections (some doc.data) d).isEmpty = false := by
        cases hdd : (diffSections (some doc.data) d).isEmpty with
        | false => rfl
        | true => exact absurd hdd hch
      simp only [hche, Bool.false_eq_true, if_false] at hfd' ⊢
      cases hcv : createVersion db ⟨id, doc.current_version + 1, d,
          diffSections (some doc.data) d,
          some (generateChangeSummary (diffSections (some doc.data) d)),
          ChangeType.edit⟩ with
      | none =>
        simp only [hcv] at hfd' ⊢
        rw [hfd] at hfd'
        have : doc = doc' := by simpa using hfd'
        subst this
        exact absurd rfl hne
      | some db1 =>
        simp only [hcv] at hfd' ⊢
        have hdb1 := createVersion_some_eq hcv
        cases crash with
        | true =>
          rw [if_pos rfl] at hfd'
          have hsame : findDoc db1 id = some doc := by
            unfold findDoc
            rw [show db1.docs = db.docs by rw [hdb1]]
            exact hfd
          rw [hsame] at hfd'
          have : doc = doc' := by simpa using hfd'
          subst this
          exact absurd rfl hne
        | false =>
          rw [if_neg (by simp)] at hfd' ⊢
          set doc1 := { applyMetaCode (applyTitle doc t) m with
            data := d, current_version := doc.current_version + 1 } with hdoc1
          have h1 : findDoc (saveDoc db1 doc1) id = some doc1 := by
            apply findDoc_saveDoc
            · rw [hdoc1]
              show (applyMetaCode (applyTitle doc t) m).rid = id
              rw [applyMetaCode_rid, applyTitle_rid]
              exact (findDoc_mem hfd).2
            · rw [hdb1]
              exact hfd
          rw [h1] at hfd'
          have : doc1 = doc' := by simpa using hfd'
          subst this
          refine ⟨rfl, ⟨id, doc.current_version + 1, d,
            diffSections (some doc.data) d,
            some (generateChangeSummary (diffSections (some doc.data) d)),
            ChangeType.edit⟩, ?_, rfl, rfl, rfl⟩
          rw [saveDoc_versions, hdb1]
          exact List.mem_append_right _ (by simp)

/-- The two writes of Replace are not atomic: a crash after the version
insert but before the document save leaves a version row numbered
`current_version + 1` with the pointer unmoved, and the request surfaces an
internal error. -/
theorem putOpWith_crash_orphan {db : DB} {id : Nat} {d : JFields}
    {t m : Option String} {doc : ResumeDoc} (hfd : findDoc db id = some doc)
    (hch : diffSections (some doc.data) d ≠ [])
    (hfresh : hasVersion db id (doc.current_version + 1) = false) :
    (putOpWith true db id (some d) t m).2 = Resp.internalError ∧
    (putOpWith true db id (some d) t m).1.versions = db.versions ++
      [⟨id, doc.current_version + 1, d, diffSections (some doc.data) d,
        some (generateChangeSummary (diffSections (some doc.data) d)),
        ChangeType.edit⟩] ∧
    findDoc (putOpWith true db id (some d) t m).1 id = some doc := by
  unfold putOpWith
  simp only [hfd]
  have hche : (diffSections (some doc.data) d).isEmpty = false := by
    cases hdd : diffSections (some doc.data) d with
    | nil => exact absurd hdd hch
    | cons a l => rfl
  simp only [hche, Bool.false_eq_true, if_false]
  rw [createVersion_not_has hfresh]
  simp only
  exact ⟨by trivial, by trivial, hfd⟩

theorem metaCodeOfData_truthy {data : JFields} {mc : String}
    (hmc : metaCodeOfData data = some mc) :
    (match data.find? "meta" with
      | some v => jsTruthy v
      | none => false) = true := by
  unfold metaCodeOfData at hmc
  cases hfm : data.find? "meta" with
  | none => rw [hfm] at hmc; simp at hmc
  | some v =>
    rw [hfm] at hmc
    unfold codeOf at hmc
    cases v with
    | obj m => simp [jsTruthy]
    | null => simp at hmc
    | bool b => simp at hmc
    | num n => simp at hmc
    | str st => simp at hmc
    | arr xs => simp at hmc

/-- Ingest into an existing classifier: a version with `change_type = upload`
is appended unconditionally (the recorded diff may be empty) and the document
advances to the uploaded payload. -/
theorem uploadOp_existing {db : DB} {data : JFields} {title : Option String}
    {mc : String} {existing : ResumeDoc}
    (hmc : metaCodeOfData data = some mc)
    (hex : db.docs.find? (fun dd => dd.meta_code == mc) = some existing)
    (hfresh : hasVersion db existing.rid (existing.current_version + 1) = false) :
    (uploadOp db data title).2 = Resp.ok false ∧
    (uploadOp db data title).1.versions = db.versions ++
      [⟨existing.rid, existing.current_version + 1, data,
        diffSections (some existing.data) data,
        some (generateChangeSummary (diffSections (some existing.data) data)),
        ChangeType.upload⟩] ∧
    (findDoc db existing.rid = some existing →
      findDoc (uploadOp db data title).1 existing.rid =
        some { existing with
          data := data
          current_version := existing.current_version + 1
          title := uploadTitle data title mc }) := by
  unfold uploadOp
  have hshape := metaCodeOfData_truthy hmc
  simp only [hshape, Bool.true_or, Bool.not_true, Bool.false_eq_true, if_false]
  simp only [hmc, hex]
  rw [createVersion_not_has hfresh]
  simp only
  refine ⟨by trivial, by trivial, ?_⟩
  intro hrid
  apply findDoc_saveDoc rfl
  show findDoc { db with versions := _ } existing.rid = some existing
  exact hrid

/-- Ingest with an unknown classifier: a fresh document at version 1 plus a
first version with `change_type = upload` and all payload keys recorded as
changed. -/
theorem uploadOp_fresh {db : DB} {data : JFields} {title : Option String}
    {mc : String}
    (hmc : metaCodeOfData data = some mc)
    (hex : db.docs.find? (fun dd => dd.meta_code == mc) = none)
    (hok : stateOKb db = true) :
    (uploadOp db data title).2 = Resp.created ∧
    (uploadOp db data title).1.docs = db.docs ++
      [⟨db.nextId, mc, uploadTitle data title mc, data, 1⟩] ∧
    (uploadOp db data title).1.versions = db.versions ++
      [⟨db.nextId, 1, data, data.keys, some "Initial upload",
        ChangeType.upload⟩] := by
  unfold uploadOp
  have hshape := metaCodeOfData_truthy hmc
  simp only [hshape, Bool.true_or, Bool.not_true, Bool.false_eq_true, if_false]
  simp only [hmc, hex]
  have hfresh : hasVersion
      { db with
        docs := db.docs ++ [⟨db.nextId, mc, uploadTitle data title mc, data, 1⟩]
        nextId := db.nextId + 1 } db.nextId 1 = false := by
    rw [hasVersion_false_iff]
    intro v hv hc
    have hb := (stateOK_of_mem hok (by simpa using hv)).2
    have : v.resume_id = db.nextId := hc.1
    omega
  rw [createVersion_not_has hfresh]
  exact ⟨by trivial, by trivial, by trivial⟩

/-- Rollback to a missing target version: NotFound, nothing changed. -/
theorem rollbackOp_notFound {db : DB} {id n : Nat} (hn : n ≠ 0)
    (hfv : findVersion db id n = none) :
    rollbackOp db id n = (db, Resp.notFound) := by
  unfold rollbackOp
  rw [if_neg (by simpa using hn)]
  rw [hfv]

/-- Rollback to an existing target: a new version numbered
`current_version + 1` carrying the target's data, `change_type = rollback`
and the summary string, appended after all existing rows, with the document
advanced to the target's data. -/
theorem rollbackOp_found {db : DB} {id n : Nat} {target : RVersion}
    {doc : ResumeDoc} (hn : n ≠ 0)
    (hfv : findVersion db id n = some target)
    (hfd : findDoc db id = some doc)
    (hfresh : hasVersion db id (doc.current_version + 1) = false) :
    (rollbackOp db id n).2 = Resp.ok false ∧
    (rollbackOp db id n).1.versions = db.versions ++
      [⟨id, doc.current_version + 1, target.data,
        diffSections (some doc.data) target.data,
        some ("Rolled back to v" ++ toString n), ChangeType.rollback⟩] ∧
    findDoc (rollbackOp db id n).1 id =
      some { doc with
        data := target.data
        current_version := doc.current_version + 1 } := by
  unfold rollbackOp
  rw [if_neg (by simpa using hn)]
  rw [hfv]
  simp only [hfd]
  rw [createVersion_not_has hfresh]
  simp only
  refine ⟨by trivial, by trivial, ?_⟩
  apply findDoc_saveDoc
  · show doc.rid = id
    exact (findDoc_mem hfd).2
  · show findDoc { db with versions := _ } id = some doc
    exact hfd

theorem hasVersion_append_last {db : DB} {v : RVersion} :
    hasVersion { db with versions := db.versions ++ [v] }
      v.resume_id v.version_number = true := by
  unfold hasVersion findVersion
  simp only
  rw [List.find?_append]
  cases h : List.find?
      (fun w => w.resume_id == v.resume_id && w.version_number == v.version_number)
      db.versions with
  | some w => simp [h]
  | none => simp [h, List.find?]

theorem hasVersion_saveDoc (db : DB) (d : ResumeDoc) (id n : Nat) :
    hasVersion (saveDoc db d) id n = hasVersion db id n := rfl

theorem writerStep_toCreate_ok {db : DB} {w : RaceWriter}
    (hph : w.phase = WPhase.toCreate)
    (hch : (diffSections (some w.snapshot.data) w.payload).isEmpty = false)
    (hfr : hasVersion db w.snapshot.rid (w.snapshot.current_version + 1) = false) :
    writerStep db w = ({ db with versions := db.versions ++ [writerVersion w] },
      { w with phase := WPhase.toSave }) := by
  unfold writerStep
  rw [hph]
  simp only [hch, Bool.false_eq_true, if_false]
  rw [createVersion_not_has hfr]

theorem writerStep_toCreate_fail {db : DB} {w : RaceWriter}
    (hph : w.phase = WPhase.toCreate)
    (hch : (diffSections (some w.snapshot.data) w.payload).isEmpty = false)
    (hfr : hasVersion db w.snapshot.rid (w.snapshot.current_version + 1) = true) :
    writerStep db w =
      (db, { w with phase := WPhase.done, resp := some Resp.internalError }) := by
  unfold writerStep
  rw [hph]
  simp only [hch, Bool.false_eq_true, if_false]
  rw [createVersion_has hfr]

theorem writerStep_toSave {db : DB} {w : RaceWriter} (hph : w.phase = WPhase.toSave) :
    writerStep db w = (saveDoc db (writerDoc w),
      { w with phase := WPhase.done, resp := some (Resp.ok false) }) := by
  unfold writerStep
  rw [hph]

theorem writerStep_done {db : DB} {w : RaceWriter} (hph : w.phase = WPhase.done) :
    writerStep db w = (db, w) := by
  unfold writerStep
  rw [hph]

theorem raceInv_step (db0 : DB) (doc : ResumeDoc) (pa pb : JFields)
    (hchA : (diffSections (some doc.data) pa).isEmpty = false)
    (hchB : (diffSections (some doc.data) pb).isEmpty = false)
    (hfresh : hasVersion db0 doc.rid (doc.current_version + 1) = false)
    (s : RaceState) (pick : Bool) (hinv : raceInv db0 doc pa pb s) :
    raceInv db0 doc pa pb (raceStep s pick) := by
  have hone_a : hasVersion (raceDbOne db0 doc pa) doc.rid
      (doc.current_version + 1) = true := by
    unfold raceDbOne
    exact hasVersion_append_last
  have hone_b : hasVersion (raceDbOne db0 doc pb) doc.rid
      (doc.current_version + 1) = true := by
    unfold raceDbOne
    exact hasVersion_append_last
  have htwo_a : hasVersion (raceDbTwo db0 doc pa) doc.rid
      (doc.current_version + 1) = true := by
    unfold raceDbTwo
    rw [hasVersion_saveDoc]
    exact hone_a
  have htwo_b : hasVersion (raceDbTwo db0 doc pb) doc.rid
      (doc.current_version + 1) = true := by
    unfold raceDbTwo
    rw [hasVersion_saveDoc]
    exact hone_b
  unfold raceInv at hinv ⊢
  unfold raceStart at hinv
  rcases hinv with h | h | h | h | h | h | h | h | h <;> subst h <;> cases pick
  -- start state
  case inl.true =>
    right; left
    show raceStep _ _ = _
    unfold raceStep
    rw [if_pos rfl, writerStep_toCreate_ok rfl hchA hfresh]
    rfl
  case inl.false =>
    right; right; left
    show raceStep _ _ = _
    unfold raceStep
    rw [if_neg Bool.false_ne_true, writerStep_toCreate_ok rfl hchB hfresh]
    rfl
  -- A created, B pending
  case inr.inl.true =>
    right; right; right; right; right; left
    show raceStep _ _ = _
    unfold raceStep
    rw [if_pos rfl, writerStep_toSave rfl]
    rfl
  case inr.inl.false =>
    right; right; right; left
    show raceStep _ _ = _
    unfold raceStep
    rw [if_neg Bool.false_ne_true, writerStep_toCreate_fail rfl hchB hone_a]
  -- B created, A pending
  case inr.inr.inl.true =>
    right; right; right; right; left
    show raceStep _ _ = _
    unfold raceStep
    rw [if_pos rfl, writerStep_toCreate_fail rfl hchA hone_b]
  case inr.inr.inl.false =>
    right; right; right; right; right; right; left
    show raceStep _ _ = _
    unfold raceStep
    rw [if_neg Bool.false_ne_true, writerStep_toSave rfl]
    rfl
  -- A created, B failed
  case inr.inr.inr.inl.true =>
    right; right; right; right; right; right; right; left
    show raceStep _ _ = _
    unfold raceStep
    rw [if_pos rfl, writerStep_toSave rfl]
    rfl
  case inr.inr.inr.inl.false =>
    right; right; right; left
    show raceStep _ _ = _
    unfold raceStep
    rw [if_neg Bool.false_ne_true, writerStep_done rfl]
  -- B created, A failed
  case inr.inr.inr.inr.inl.true =>
    right; right; right; right; left
    show raceStep _ _ = _
    unfold raceStep
    rw [if_pos rfl, writerStep_done rfl]
  case inr.inr.inr.inr.inl.false =>
    right; right; right; right; right; right; right; right
    show raceStep _ _ = _
    unfold raceStep
    rw [if_neg Bool.false_ne_true, writerStep_toSave rfl]
    rfl
  -- A saved, B pending
  case inr.inr.inr.inr.inr.inl.true =>
    right; right; right; right; right; left
    show raceStep _ _ = _
    unfold raceStep
    rw [if_pos rfl, writerStep_done rfl]
  case inr.inr.inr.inr.inr.inl.false =>
    right; right; right; right; right; right; right; left
    show raceStep _ _ = _
    unfold raceStep
    rw [if_neg Bool.false_ne_true, writerStep_toCreate_fail rfl hchB htwo_a]
  -- B saved, A pending
  case inr.inr.inr.inr.inr.inr.inl.true =>
    right; right; right; right; right; right; right; right
    show raceStep _ _ = _
    unfold raceStep
    rw [if_pos rfl, writerStep_toCreate_fail rfl hchA htwo_b]
  case inr.inr.inr.inr.inr.inr.inl.false =>
    right; right; right; right; right; right; left
    show raceStep _ _ = _
    unfold raceStep
    rw [if_neg Bool.false_ne_true, writerStep_done rfl]
  -- A saved, B failed (terminal)
  case inr.inr.inr.inr.inr.inr.inr.inl.true =>
    right; right; right; right; right; right; right; left
    show raceStep _ _ = _
    unfold raceStep
    rw [if_pos rfl, writerStep_done rfl]
  case inr.inr.inr.inr.inr.inr.inr.inl.false =>
    right; right; right; right; right; right; right; left
    show raceStep _ _ = _
    unfold raceStep
    rw [if_neg Bool.false_ne_true, writerStep_done rfl]
  -- B saved, A failed (terminal)
  case inr.inr.inr.inr.inr.inr.inr.inr.true =>
    right; right; right; right; right; right; right; right
    show raceStep _ _ = _
    unfold raceStep
    rw [if_pos rfl, writerStep_done rfl]
  case inr.inr.inr.inr.inr.inr.inr.inr.false =>
    right; right; right; right; right; right; right; right
    show raceStep _ _ = _
    unfold raceStep
    rw [if_neg Bool.false_ne_true, writerStep_done rfl]

theorem raceInv_run (db0 : DB) (doc : ResumeDoc) (pa pb : JFields)
    (hchA : (diffSections (some doc.data) pa).isEmpty = false)
    (hchB : (diffSections (some doc.data) pb).isEmpty = false)
    (hfresh : hasVersion db0 doc.rid (doc.current_version + 1) = false)
    (sched : List Bool) :
    ∀ (s : RaceState), raceInv db0 doc pa pb s →
      raceInv db0 doc pa pb (raceRun s sched) := by
  induction sched with
  | nil => intro s hinv; exact hinv
  | cons p rest ih =>
    intro s hinv
    exact ih _ (raceInv_step db0 doc pa pb hchA hchB hfresh s p hinv)

theorem applyMetaFromValue_rid (doc : ResumeDoc) (v : Json) :
    (applyMetaFromValue doc v).rid = doc.rid := by
  unfold applyMetaFromValue; cases codeOf v <;> rfl

theorem applyMetaFromValue_cv (doc : ResumeDoc) (v : Json) :
    (applyMetaFromValue doc v).current_version = doc.current_version := by
  unfold applyMetaFromValue; cases codeOf v <;> rfl

theorem applyMetaFromValue_data (doc : ResumeDoc) (v : Json) :
    (applyMetaFromValue doc v).data = doc.data := by
  unfold applyMetaFromValue; cases codeOf v <;> rfl

/-- Single-section PATCH: no version, same `current_version`, the named
section replaced wholesale, all other keys untouched. -/
theorem patchOp_single_spec {db : DB} {id : Nat} {doc : ResumeDoc}
    {sec : String} {v : Json} (hfd : findDoc db id = some doc)
    (hval : validSections.contains sec = true) :
    (patchOp db id (PatchBody.single sec v)).2 = Resp.ok false ∧
    (patchOp db id (PatchBody.single sec v)).1.versions = db.versions ∧
    ∃ doc', findDoc (patchOp db id (PatchBody.single sec v)).1 id = some doc' ∧
      doc'.current_version = doc.current_version ∧
      doc'.data.find? sec = some v ∧
      (∀ k, k ≠ sec → doc'.data.find? k = doc.data.find? k) := by
  obtain ⟨doc2, hrid, hcv, hdata, hres⟩ : ∃ doc2 : ResumeDoc,
      doc2.rid = doc.rid ∧ doc2.current_version = doc.current_version ∧
      doc2.data = jsSpread doc.data (JFields.cons sec v JFields.nil) ∧
      patchOp db id (PatchBody.single sec v) = (saveDoc db doc2, Resp.ok false) := by
    unfold patchOp
    simp only [hfd, hval, if_true]
    by_cases hm : (sec == "meta") = true
    · rw [if_pos hm]
      refine ⟨applyMetaFromValue
        { doc with data := jsSpread doc.data (JFields.cons sec v JFields.nil) } v,
        ?_, ?_, ?_, rfl⟩
      · rw [applyMetaFromValue_rid]
      · rw [applyMetaFromValue_cv]
      · rw [applyMetaFromValue_data]
    · rw [if_neg hm]
      exact ⟨{ doc with data := jsSpread doc.data (JFields.cons sec v JFields.nil) },
        rfl, rfl, rfl, rfl⟩
  rw [hres]
  refine ⟨rfl, rfl, doc2,
    findDoc_saveDoc (by rw [hrid]; exact (findDoc_mem hfd).2) hfd, hcv, ?_, ?_⟩
  · rw [hdata, jsSpread_find?]
    simp [JFields.find?]
  · intro k hk
    rw [hdata, jsSpread_find?]
    have hnone : (JFields.cons sec v JFields.nil).find? k = none := by
      simp only [JFields.find?]
      rw [if_neg]
      intro hc
      exact hk (beq_iff_eq.mp hc).symm
    rw [hnone]

/-- Multi-section PATCH: no version, same `current_version`, every named
section replaced wholesale by its patch value, every other key untouched. -/
theorem patchOp_multi_spec {db : DB} {id : Nat} {doc : ResumeDoc}
    {secs : JFields} (hfd : findDoc db id = some doc)
    (hval : secs.keys.all (fun k => validSections.contains k) = true) :
    (patchOp db id (PatchBody.multi secs)).2 = Resp.ok false ∧
    (patchOp db id (PatchBody.multi secs)).1.versions = db.versions ∧
    ∃ doc', findDoc (patchOp db id (PatchBody.multi secs)).1 id = some doc' ∧
      doc'.current_version = doc.current_version ∧
      (∀ k, doc'.data.find? k =
        (match secs.find? k with
         | some w => some w
         | none => doc.data.find? k)) := by
  obtain ⟨doc2, hrid, hcv, hdata, hres⟩ : ∃ doc2 : ResumeDoc,
      doc2.rid = doc.rid ∧ doc2.current_version = doc.current_version ∧
      doc2.data = jsSpread doc.data secs ∧
      patchOp db id (PatchBody.multi secs) = (saveDoc db doc2, Resp.ok false) := by
    unfold patchOp
    simp only [hfd, hval, if_true]
    cases hfm : secs.find? "meta" with
    | some mv =>
      refine ⟨applyMetaFromValue { doc with data := jsSpread doc.data secs } mv,
        ?_, ?_, ?_, rfl⟩
      · rw [applyMetaFromValue_rid]
      · rw [applyMetaFromValue_cv]
      · rw [applyMetaFromValue_data]
    | none => exact ⟨{ doc with data := jsSpread doc.data secs }, rfl, rfl, rfl, rfl⟩
  rw [hres]
  refine ⟨rfl, rfl, doc2,
    findDoc_saveDoc (by rw [hrid]; exact (findDoc_mem hfd).2) hfd, hcv, ?_⟩
  intro k
  rw [hdata, jsSpread_find?]

/-- C4: the claim as stated is false on the code.  On the well-formed maps
`{"k": {"0": "x"}}` and `{"k": ["x"]}` the values at `"k"` are an object and
an array, hence not deeply equal under the spec's structural equality (the
spec-described diff is `{"k"}`), yet `diffSections` returns the empty set,
because `deepEqual` compares an old object against a new array through
JavaScript key lookup (`Object.keys` counts plus `b[key]`). -/
theorem claim_C4_counterexample :
    jsonWF (Json.obj exOld) = true ∧ jsonWF (Json.obj exNew) = true ∧
    specEq exObjIdx exArrX = false ∧
    specDiff exOld exNew = ["k"] ∧
    deepEqual exObjIdx exArrX = true ∧
    diffSections (some exOld) exNew = [] := by decide

/-- C4 (amended): with `previous` absent, `diffSections` returns exactly the
keys of `next`; otherwise it returns exactly the keys of either map whose
values are not deeply equal, where deep equality is the spec's recursive
structural equality amended with one code-forced exception: a previous object
value also counts as equal to a next array value when its keys, under
JavaScript array property lookup, retrieve deeply-equal values (e.g.
`{"0": x}` vs `[x]`). -/
theorem claim_C4 (old next : JFields) (h1 : jsonWF (Json.obj old) = true)
    (h2 : jsonWF (Json.obj next) = true) :
    diffSections none next = next.keys ∧
    diffSections (some old) next = specDiffA old next :=
  ⟨rfl, diffSections_eq_specDiffA h1 h2⟩

theorem claim_C4_witness :
    jsonWF (Json.obj exOld) = true ∧ jsonWF (Json.obj exNew) = true ∧
    (diffSections none exNew = exNew.keys ∧
      diffSections (some exOld) exNew = specDiffA exOld exNew) :=
  ⟨by decide, by decide,
    claim_C4 exOld exNew (by decide) (by decide)⟩

/-- C5: `diffSections(X, X) = ∅` for every well-formed section map, and after
a successful rollback to version `n` the document's new current data diffs
empty against the target version's stored data. -/
theorem claim_C5 {X : JFields} (hX : jsonWF (Json.obj X) = true)
    {db : DB} {id n : Nat} {target : RVersion} {doc doc' : ResumeDoc}
    (hok : stateOKb db = true) (hn : n ≠ 0)
    (hfv : findVersion db id n = some target)
    (hfd : findDoc db id = some doc)
    (hfresh : hasVersion db id (doc.current_version + 1) = false)
    (hfd' : findDoc (rollbackOp db id n).1 id = some doc') :
    diffSections (some X) X = [] ∧
    diffSections (some doc'.data) target.data = [] := by
  refine ⟨diffSections_self hX, ?_⟩
  have hr := rollbackOp_found hn hfv hfd hfresh
  rw [hr.2.2] at hfd'
  have hdoc' : ({ doc with
      data := target.data
      current_version := doc.current_version + 1 } : ResumeDoc) = doc' := by
    simpa using hfd'
  have htwf : jsonWF (Json.obj target.data) = true :=
    (stateOK_of_mem hok (findVersion_mem hfv).1).1
  rw [← hdoc']
  exact diffSections_self htwf

theorem claim_C5_witness :
    jsonWF (Json.obj exDataA) = true ∧ stateOKb exDB = true ∧ (1 : Nat) ≠ 0 ∧
    findVersion exDB 0 1 =
      some ⟨0, 1, exDataA, ["basics"], some "Initial upload", ChangeType.upload⟩ ∧
    findDoc exDB 0 = some exDoc ∧ hasVersion exDB 0 2 = false ∧
    findDoc (rollbackOp exDB 0 1).1 0 = some ⟨0, "SWE", "T", exDataA, 2⟩ ∧
    (diffSections (some exDataA) exDataA = [] ∧
      diffSections (some (⟨0, "SWE", "T", exDataA, 2⟩ : ResumeDoc).data)
        (⟨0, 1, exDataA, ["basics"], some "Initial upload",
          ChangeType.upload⟩ : RVersion).data = []) :=
  ⟨by decide, by decide, by decide, by decide, by decide, by decide, by decide,
    @claim_C5 exDataA (by decide) exDB 0 1
      ⟨0, 1, exDataA, ["basics"], some "Initial upload", ChangeType.upload⟩
      exDoc ⟨0, "SWE", "T", exDataA, 2⟩
      (by decide) (by decide) (by decide) (by decide) (by decide) (by decide)⟩

/-- C6: Replace on an existing document.  Empty diff: `no_change` reported,
no version created, `data` and `current_version` unchanged, only
title/classifier updated (per the truthy-field rules of `applyTitle` /
`applyMetaCode`).  Non-empty diff: exactly one new `edit` version numbered
`current_version + 1` is appended and the document advances to the new
payload. -/
theorem claim_C6 {db : DB} {id : Nat} {d : JFields} {t m : Option String}
    {doc : ResumeDoc} (hfd : findDoc db id = some doc)
    (hfresh : hasVersion db id (doc.current_version + 1) = false) :
    (diffSections (some doc.data) d = [] →
      (putOp db id (some d) t m).2 = Resp.ok true ∧
      (putOp db id (some d) t m).1.versions = db.versions ∧
      ∃ doc', findDoc (putOp db id (some d) t m).1 id = some doc' ∧
        doc'.data = doc.data ∧ doc'.current_version = doc.current_version ∧
        doc' = applyMetaCode (applyTitle doc t) m) ∧
    (diffSections (some doc.data) d ≠ [] →
      (putOp db id (some d) t m).2 = Resp.ok false ∧
      (putOp db id (some d) t m).1.versions = db.versions ++
        [⟨id, doc.current_version + 1, d, diffSections (some doc.data) d,
          some (generateChangeSummary (diffSections (some doc.data) d)),
          ChangeType.edit⟩] ∧
      findDoc (putOp db id (some d) t m).1 id =
        some { applyMetaCode (applyTitle doc t) m with
          data := d
          current_version := doc.current_version + 1 }) := by
  constructor
  · intro hch
    obtain ⟨h1, h2, h3⟩ := @putOp_empty_diff db id d t m doc hfd hch
    refine ⟨h1, h2, applyMetaCode (applyTitle doc t) m, h3, ?_, ?_, rfl⟩
    · rw [applyMetaCode_data, applyTitle_data]
    · rw [applyMetaCode_cv, applyTitle_cv]
  · intro hch
    exact putOp_nonempty_diff hfd hch hfresh

theorem claim_C6_witness :
    findDoc exDB 0 = some exDoc ∧ hasVersion exDB 0 2 = false ∧
    ((diffSections (some exDoc.data) exDataB = [] →
      (putOp exDB 0 (some exDataB) none none).2 = Resp.ok true ∧
      (putOp exDB 0 (some exDataB) none none).1.versions = exDB.versions ∧
      ∃ doc', findDoc (putOp exDB 0 (some exDataB) none none).1 0 = some doc' ∧
        doc'.data = exDoc.data ∧ doc'.current_version = exDoc.current_version ∧
        doc' = applyMetaCode (applyTitle exDoc none) none) ∧
    (diffSections (some exDoc.data) exDataB ≠ [] →
      (putOp exDB 0 (some exDataB) none none).2 = Resp.ok false ∧
      (putOp exDB 0 (some exDataB) none none).1.versions = exDB.versions ++
        [⟨0, exDoc.current_version + 1, exDataB,
          diffSections (some exDoc.data) exDataB,
          some (generateChangeSummary (diffSections (some exDoc.data) exDataB)),
          ChangeType.edit⟩] ∧
      findDoc (putOp exDB 0 (some exDataB) none none).1 0 =
        some { applyMetaCode (applyTitle exDoc none) none with
          data := exDataB
          current_version := exDoc.current_version + 1 })) :=
  ⟨by decide, by decide,
    @claim_C6 exDB 0 exDataB none none exDoc (by decide) (by decide)⟩

/-- C7: a successful PATCH never creates a version and never moves
`current_version`; each supplied valid section is replaced wholesale by key
and every section not named in the patch is unchanged, for both the
single-section and the multi-section body shapes. -/
theorem claim_C7 {db : DB} {id : Nat} {doc : ResumeDoc}
    (hfd : findDoc db id = some doc) :
    (∀ (sec : String) (v : Json), validSections.contains sec = true →
      (patchOp db id (PatchBody.single sec v)).2 = Resp.ok false ∧
      (patchOp db id (PatchBody.single sec v)).1.versions = db.versions ∧
      ∃ doc', findDoc (patchOp db id (PatchBody.single sec v)).1 id = some doc' ∧
        doc'.current_version = doc.current_version ∧
        doc'.data.find? sec = some v ∧
        (∀ k, k ≠ sec → doc'.data.find? k = doc.data.find? k)) ∧
    (∀ secs : JFields, secs.keys.all (fun k => validSections.contains k) = true →
      (patchOp db id (PatchBody.multi secs)).2 = Resp.ok false ∧
      (patchOp db id (PatchBody.multi secs)).1.versions = db.versions ∧
      ∃ doc', findDoc (patchOp db id (PatchBody.multi secs)).1 id = some doc' ∧
        doc'.current_version = doc.current_version ∧
        (∀ k, doc'.data.find? k =
          (match secs.find? k with
           | some w => some w
           | none => doc.data.find? k))) :=
  ⟨fun sec v hval => patchOp_single_spec hfd hval,
   fun secs hval => patchOp_multi_spec hfd hval⟩

theorem claim_C7_witness :
    findDoc exDB 0 = some exDoc ∧
    validSections.contains "basics" = true ∧
    ((patchOp exDB 0 (PatchBody.single "basics" (Json.str "B"))).2 = Resp.ok false ∧
      (patchOp exDB 0 (PatchBody.single "basics" (Json.str "B"))).1.versions =
        exDB.versions ∧
      ∃ doc', findDoc (patchOp exDB 0 (PatchBody.single "basics" (Json.str "B"))).1 0 =
          some doc' ∧
        doc'.current_version = exDoc.current_version ∧
        doc'.data.find? "basics" = some (Json.str "B") ∧
        (∀ k, k ≠ "basics" → doc'.data.find? k = exDoc.data.find? k)) :=
  ⟨by decide, by decide,
    (@claim_C7 exDB 0 exDoc (by decide)).1 "basics" (Json.str "B") (by decide)⟩

/-- C1: the claim as stated is false on the code, because partial update is
among the listed operations: from a state satisfying the §3 invariant, a
completed PATCH that changes the `basics` section rewrites the document's
`data` without creating any version and without moving `current_version`, so
the data no longer deeply equals the stored version `current_version` points
at. -/
theorem claim_C1_counterexample :
    invB exDB = true ∧ stateOKb exDB = true ∧
    (patchOp exDB 0 (PatchBody.single "basics" (Json.str "B"))).2 = Resp.ok false ∧
    invB (patchOp exDB 0 (PatchBody.single "basics" (Json.str "B"))).1 = false := by
  decide

/-- C1 (amended): for every completed create, Replace, Ingest and Rollback
(partial update excluded) on a store whose version payloads are well-formed
and whose rows reference allocated ids, the §3 invariant is preserved: each
document's `data` stays deeply equal to the data of the version row numbered
`current_version`. -/
theorem claim_C1 (db : DB) (op : WriteOp) (hok : stateOKb db = true)
    (hwf : opWF op = true) (hinv : invB db = true) :
    invB (applyOp db op).1 = true :=
  invB_preserved db op hok hwf hinv

theorem claim_C1_witness :
    stateOKb exDB = true ∧
    opWF (WriteOp.replace 0 (some exDataB) none none) = true ∧
    invB exDB = true ∧
    invB (applyOp exDB (WriteOp.replace 0 (some exDataB) none none)).1 = true :=
  ⟨by decide, by decide, by decide,
    claim_C1 exDB (WriteOp.replace 0 (some exDataB) none none)
      (by decide) (by decide) (by decide)⟩

/-- C2: the claim as stated is false on the code: the version insert and the
document save are two separate writes, and when the save fails after the
insert succeeded (modelled by `putOpWith true`), the request ends in a 500
with a version row numbered 2 persisted while `current_version` is still 1 —
a version row exists above the pointer without the advance that makes it
current. -/
theorem claim_C2_counterexample :
    (putOpWith true exDB 0 (some exDataB) none none).2 = Resp.internalError ∧
    findVersion (putOpWith true exDB 0 (some exDataB) none none).1 0 2 =
      some ⟨0, 2, exDataB, ["basics"], some "Updated basics", ChangeType.edit⟩ ∧
    findDoc (putOpWith true exDB 0 (some exDataB) none none).1 0 = some exDoc := by
  decide

/-- C2 (amended): the version append strictly precedes the pointer write, so
in every outcome of Replace — crash or no crash — `current_version` only ever
advances to `current_version + 1` and only when a version row with exactly
that number and the new payload is present; but the two writes are not one
atomic unit: a failure between them leaves a version row numbered
`current_version + 1` persisted with the pointer unmoved and the request
reported as an internal error. -/
theorem claim_C2 {db : DB} {id : Nat} {d : JFields} {t m : Option String}
    {doc : ResumeDoc} (hfd : findDoc db id = some doc)
    (hch : diffSections (some doc.data) d ≠ [])
    (hfresh : hasVersion db id (doc.current_version + 1) = false) :
    (∀ (crash : Bool) (doc' : ResumeDoc),
      findDoc (putOpWith crash db id (some d) t m).1 id = some doc' →
      doc'.current_version ≠ doc.current_version →
      doc'.current_version = doc.current_version + 1 ∧
      ∃ v ∈ (putOpWith crash db id (some d) t m).1.versions,
        v.resume_id = id ∧ v.version_number = doc'.current_version ∧
        v.data = d) ∧
    ((putOpWith true db id (some d) t m).2 = Resp.internalError ∧
      (putOpWith true db id (some d) t m).1.versions = db.versions ++
        [⟨id, doc.current_version + 1, d, diffSections (some doc.data) d,
          some (generateChangeSummary (diffSections (some doc.data) d)),
          ChangeType.edit⟩] ∧
      findDoc (putOpWith true db id (some d) t m).1 id = some doc) := by
  constructor
  · intro crash doc' hfd' hne
    obtain ⟨h1, v, hv, h2, h3, h4⟩ :=
      putOpWith_pointer_version crash db id (some d) t m hfd hfd' hne
    exact ⟨h1, v, hv, h2, h3, (Option.some_inj.mp h4).symm⟩
  · exact putOpWith_crash_orphan hfd hch hfresh

theorem claim_C2_witness :
    findDoc exDB 0 = some exDoc ∧
    diffSections (some exDoc.data) exDataB ≠ [] ∧
    hasVersion exDB 0 2 = false ∧
    ((putOpWith true exDB 0 (some exDataB) none none).2 = Resp.internalError ∧
      (putOpWith true exDB 0 (some exDataB) none none).1.versions =
        exDB.versions ++
        [⟨0, exDoc.current_version + 1, exDataB,
          diffSections (some exDoc.data) exDataB,
          some (generateChangeSummary (diffSections (some exDoc.data) exDataB)),
          ChangeType.edit⟩] ∧
      findDoc (putOpWith true exDB 0 (some exDataB) none none).1 0 = some exDoc) :=
  ⟨by decide, by decide, by decide,
    (@claim_C2 exDB 0 exDataB none none exDoc
      (by decide) (by decide) (by decide)).2⟩

/-- C10: the claim as stated is false on the code: `POST /api/resumes`
persists the first version with only `resume_id`, `version_number` and
`data`, so `changed_sections` is stored as the schema default `[]` — a
version row with an empty recorded diff exists right after a successful
create. -/
theorem claim_C10_counterexample :
    (createOp emptyDB (some exDataA) (some "SWE") (some "T")).2 = Resp.created ∧
    (createOp emptyDB (some exDataA) (some "SWE") (some "T")).1.versions =
      [⟨0, 1, exDataA, [], none, ChangeType.edit⟩] := by
  decide

/-- C10 (amended): Replace never persists a version with an empty recorded
diff — every version present after a `PUT` was either already stored or has
non-empty `changed_sections` — but the create path always stores the first
version with the `[]` default, and Ingest-to-existing and Rollback copy a
possibly-empty diff into the row they create. -/
theorem claim_C10 (db : DB) (id : Nat) (d : Option JFields)
    (t m : Option String) :
    ∀ v ∈ (putOp db id d t m).1.versions,
      v ∈ db.versions ∨ v.changed_sections ≠ [] :=
  putOp_no_empty_changed db id d t m

theorem claim_C10_witness :
    (⟨0, 2, exDataB, ["basics"], some "Updated basics", ChangeType.edit⟩ : RVersion)
      ∈ (putOp exDB 0 (some exDataB) none none).1.versions ∧
    ((⟨0, 2, exDataB, ["basics"], some "Updated basics", ChangeType.edit⟩ : RVersion)
        ∈ exDB.versions ∨
      (⟨0, 2, exDataB, ["basics"], some "Updated basics",
        ChangeType.edit⟩ : RVersion).changed_sections ≠ []) :=
  ⟨by decide,
    claim_C10 exDB 0 (some exDataB) none none
      ⟨0, 2, exDataB, ["basics"], some "Updated basics", ChangeType.edit⟩
      (by decide)⟩

/-- C8: the claim as stated is false on the code: uploading a payload
identical to the existing document's data (empty diff) still creates a new
version — the upload path has no empty-diff guard, unlike Replace — so
"behaves like Replace … including creating no new version when the diff is
empty" fails. -/
theorem claim_C8_counterexample :
    diffSections (some exMeta) exMeta = [] ∧
    (uploadOp exDBUp exMeta none).2 = Resp.ok false ∧
    (uploadOp exDBUp exMeta none).1.versions =
      [⟨0, 1, exMeta, ["meta"], some "Initial upload", ChangeType.upload⟩,
       ⟨0, 2, exMeta, [], some "No changes detected", ChangeType.upload⟩] ∧
    findDoc (uploadOp exDBUp exMeta none).1 0 =
      some ⟨0, "SWE", "Untitled Resume – SWE", exMeta, 2⟩ := by
  decide

/-- C8 (amended): Ingest with an existing classifier always appends one
`upload` version numbered `current_version + 1` whose `changed_sections` is
the diff against the current data — even when that diff is empty — and
advances the document; with an unknown classifier it creates a new document
at `current_version = 1` plus a first `upload` version whose
`changed_sections` is all top-level payload keys. -/
theorem claim_C8 {db : DB} {data : JFields} {title : Option String}
    {mc : String} (hmc : metaCodeOfData data = some mc) :
    (∀ existing : ResumeDoc,
      db.docs.find? (fun dd => dd.meta_code == mc) = some existing →
      hasVersion db existing.rid (existing.current_version + 1) = false →
      (uploadOp db data title).2 = Resp.ok false ∧
      (uploadOp db data title).1.versions = db.versions ++
        [⟨existing.rid, existing.current_version + 1, data,
          diffSections (some existing.data) data,
          some (generateChangeSummary (diffSections (some existing.data) data)),
          ChangeType.upload⟩] ∧
      (findDoc db existing.rid = some existing →
        findDoc (uploadOp db data title).1 existing.rid =
          some { existing with
            data := data
            current_version := existing.current_version + 1
            title := uploadTitle data title mc })) ∧
    (db.docs.find? (fun dd => dd.meta_code == mc) = none → stateOKb db = true →
      (uploadOp db data title).2 = Resp.created ∧
      (uploadOp db data title).1.docs = db.docs ++
        [⟨db.nextId, mc, uploadTitle data title mc, data, 1⟩] ∧
      (uploadOp db data title).1.versions = db.versions ++
        [⟨db.nextId, 1, data, data.keys, some "Initial upload",
          ChangeType.upload⟩]) :=
  ⟨fun existing hex hfresh => uploadOp_existing hmc hex hfresh,
   fun hex hok => uploadOp_fresh hmc hex hok⟩

theorem claim_C8_witness :
    metaCodeOfData exMeta = some "SWE" ∧
    exDBUp.docs.find? (fun dd => dd.meta_code == "SWE") = some exDocUp ∧
    hasVersion exDBUp 0 2 = false ∧
    ((uploadOp exDBUp exMeta none).2 = Resp.ok false ∧
      (uploadOp exDBUp exMeta none).1.versions = exDBUp.versions ++
        [⟨0, exDocUp.current_version + 1, exMeta,
          diffSections (some exDocUp.data) exMeta,
          some (generateChangeSummary (diffSections (some exDocUp.data) exMeta)),
          ChangeType.upload⟩] ∧
      (findDoc exDBUp 0 = some exDocUp →
        findDoc (uploadOp exDBUp exMeta none).1 0 =
          some { exDocUp with
            data := exMeta
            current_version := exDocUp.current_version + 1
            title := uploadTitle exMeta none "SWE" })) :=
  ⟨by decide, by decide, by decide,
    (@claim_C8 exDBUp exMeta none "SWE" (by decide)).1 exDocUp
      (by decide) (by decide)⟩

/-- C9: rollback to a missing target fails with NotFound leaving the store
untouched; rollback to an existing target appends one new `rollback` version
numbered `current_version + 1` with the target's data and the summary
`"Rolled back to v{n}"`, advances the pointer to it, and — the version list
being strictly extended — modifies or removes neither the target nor any
other version. -/
theorem claim_C9 {db : DB} {id n : Nat} {doc : ResumeDoc}
    (hn : 1 ≤ n) (hfd : findDoc db id = some doc)
    (hfresh : hasVersion db id (doc.current_version + 1) = false) :
    (findVersion db id n = none → rollbackOp db id n = (db, Resp.notFound)) ∧
    (∀ target : RVersion, findVersion db id n = some target →
      (rollbackOp db id n).2 = Resp.ok false ∧
      (rollbackOp db id n).1.versions = db.versions ++
        [⟨id, doc.current_version + 1, target.data,
          diffSections (some doc.data) target.data,
          some ("Rolled back to v" ++ toString n), ChangeType.rollback⟩] ∧
      findDoc (rollbackOp db id n).1 id =
        some { doc with
          data := target.data
          current_version := doc.current_version + 1 }) := by
  have hn0 : n ≠ 0 := by omega
  exact ⟨fun hfv => rollbackOp_notFound hn0 hfv,
    fun target hfv => rollbackOp_found hn0 hfv hfd hfresh⟩

theorem claim_C9_witness :
    (1 : Nat) ≤ 1 ∧ findDoc exDB 0 = some exDoc ∧ hasVersion exDB 0 2 = false ∧
    ((rollbackOp exDB 0 1).2 = Resp.ok false ∧
      (rollbackOp exDB 0 1).1.versions = exDB.versions ++
        [⟨0, exDoc.current_version + 1,
          (⟨0, 1, exDataA, ["basics"], some "Initial upload",
            ChangeType.upload⟩ : RVersion).data,
          diffSections (some exDoc.data)
            (⟨0, 1, exDataA, ["basics"], some "Initial upload",
              ChangeType.upload⟩ : RVersion).data,
          some ("Rolled back to v" ++ toString 1), ChangeType.rollback⟩] ∧
      findDoc (rollbackOp exDB 0 1).1 0 =
        some { exDoc with
          data := (⟨0, 1, exDataA, ["basics"], some "Initial upload",
            ChangeType.upload⟩ : RVersion).data
          current_version := exDoc.current_version + 1 }) :=
  ⟨by decide, by decide, by decide,
    (@claim_C9 exDB 0 1 exDoc (by decide) (by decide) (by decide)).2
      ⟨0, 1, exDataA, ["basics"], some "Initial upload", ChangeType.upload⟩
      (by decide)⟩

/-- C3: the claim as stated is false on the code.  In the race where writer A
creates and saves before writer B's insert, B's duplicate-key rejection is
surfaced as a generic 500 internal error — not a VersionConflict — and B
performs no retry: the final store holds no version `N+2 = 3` and the pointer
rests at `N+1 = 2`. -/
theorem claim_C3_counterexample :
    (raceRun (raceStart exDB exDoc exDataB exDataC) [true, true, false]).wA.resp =
      some (Resp.ok false) ∧
    (raceRun (raceStart exDB exDoc exDataB exDataC) [true, true, false]).wB.resp =
      some Resp.internalError ∧
    some Resp.internalError ≠ some Resp.conflict ∧
    findVersion (raceRun (raceStart exDB exDoc exDataB exDataC)
      [true, true, false]).db 0 3 = none ∧
    findDoc (raceRun (raceStart exDB exDoc exDataB exDataC)
      [true, true, false]).db 0 = some ⟨0, "SWE", "T", exDataB, 2⟩ := by
  decide

/-- C3 (amended): for every interleaving of two Replace writers racing from
the same snapshot (`current_version` N, both diffs non-empty, no `N+1` row
yet), once both requests finish the outcome is one of exactly two terminal
states: one writer appended the single `N+1` version and advanced the
pointer (response ok), and the other writer's insert was rejected by the
unique index and surfaced as a generic 500 internal error, with no retry, no
VersionConflict response, and no second version row. -/
theorem claim_C3 {db0 : DB} {doc : ResumeDoc} {pa pb : JFields}
    (hchA : (diffSections (some doc.data) pa).isEmpty = false)
    (hchB : (diffSections (some doc.data) pb).isEmpty = false)
    (hfresh : hasVersion db0 doc.rid (doc.current_version + 1) = false)
    (sched : List Bool)
    (hA : (raceRun (raceStart db0 doc pa pb) sched).wA.phase = WPhase.done)
    (hB : (raceRun (raceStart db0 doc pa pb) sched).wB.phase = WPhase.done) :
    raceRun (raceStart db0 doc pa pb) sched =
      ⟨raceDbTwo db0 doc pa, ⟨doc, pa, WPhase.done, some (Resp.ok false)⟩,
        ⟨doc, pb, WPhase.done, some Resp.internalError⟩⟩ ∨
    raceRun (raceStart db0 doc pa pb) sched =
      ⟨raceDbTwo db0 doc pb, ⟨doc, pa, WPhase.done, some Resp.internalError⟩,
        ⟨doc, pb, WPhase.done, some (Resp.ok false)⟩⟩ := by
  have hinv := raceInv_run db0 doc pa pb hchA hchB hfresh sched
    (raceStart db0 doc pa pb) (Or.inl rfl)
  unfold raceInv at hinv
  rcases hinv with h | h | h | h | h | h | h | h | h
  · rw [h] at hA; simp [raceStart] at hA
  · rw [h] at hB; simp at hB
  · rw [h] at hA; simp at hA
  · rw [h] at hA; simp at hA
  · rw [h] at hB; simp at hB
  · rw [h] at hB; simp at hB
  · rw [h] at hA; simp at hA
  · exact Or.inl h
  · exact Or.inr h

theorem claim_C3_witness :
    (diffSections (some exDoc.data) exDataB).isEmpty = false ∧
    (diffSections (some exDoc.data) exDataC).isEmpty = false ∧
    hasVersion exDB exDoc.rid (exDoc.current_version + 1) = false ∧
    (raceRun (raceStart exDB exDoc exDataB exDataC) [false, false, true]).wA.phase =
      WPhase.done ∧
    (raceRun (raceStart exDB exDoc exDataB exDataC) [false, false, true]).wB.phase =
      WPhase.done ∧
    (raceRun (raceStart exDB exDoc exDataB exDataC) [false, false, true] =
      ⟨raceDbTwo exDB exDoc exDataB,
        ⟨exDoc, exDataB, WPhase.done, some (Resp.ok false)⟩,
        ⟨exDoc, exDataC, WPhase.done, some Resp.internalError⟩⟩ ∨
    raceRun (raceStart exDB exDoc exDataB exDataC) [false, false, true] =
      ⟨raceDbTwo exDB exDoc exDataC,
        ⟨exDoc, exDataB, WPhase.done, some Resp.internalError⟩,
        ⟨exDoc, exDataC, WPhase.done, some (Resp.ok false)⟩⟩) :=
  ⟨by decide, by decide, by decide, by decide, by decide,
    @claim_C3 exDB exDoc exDataB exDataC (by decide) (by decide) (by decide)
      [false, false, true] (by decide) (by decide)⟩
